import Mathlib

/-!
# Verification of the bib_cleaner core pipeline

A shallow embedding of the BibTeX parse → normalize → serialize pipeline of
`src/static_site/app.js`, together with theorems settling the specification
claims.  Strings are modelled as Lean `String`/`List Char`; JavaScript objects
(string-keyed, insertion-ordered) are modelled as association lists in which
assignment to an existing key updates in place and assignment to a fresh key
appends.  JavaScript regular-expression operations used by the code are
modelled by explicit left-to-right scanners implementing the leftmost,
non-overlapping match semantics of `String.prototype.replace`/`split`.
-/

set_option maxRecDepth 100000

namespace BibCleaner


/-- JavaScript whitespace (`\s`, also trimmed by `String.prototype.trim`),
restricted to the whitespace characters of ASCII text plus NBSP. -/
def jsIsWs (c : Char) : Bool :=
  c = ' ' || c = '\t' || c = '\n' || c = '\r' || c = '\x0b' || c = '\x0c' || c = '\u00A0'


/-- `String.prototype.trim` on a character list. -/
def trimChars (cs : List Char) : List Char :=
  ((cs.dropWhile jsIsWs).reverse.dropWhile jsIsWs).reverse


/-- `String.prototype.trim`. -/
def jsTrim (s : String) : String := ⟨trimChars s.data⟩


/-- `String.prototype.toLowerCase`, faithful on ASCII (the code only lowercases
entry types and field keys, which are ASCII identifiers). -/
def jsToLower (s : String) : String := ⟨s.data.map Char.toLower⟩


/-- `Array.prototype.join(sep)`. -/
def jsJoin (sep : String) : List String → String
  | [] => ""
  | x :: xs => xs.foldl (fun acc y => acc ++ sep ++ y) x


/-- JavaScript word character (`\w` = `[A-Za-z0-9_]`). -/
def isWordChar (c : Char) : Bool := c.isAlphanum || c = '_'


/-! ## JavaScript object model (insertion-ordered string map) -/

/-- Property read `m[k]` on a JS object modelled as an association list. -/
def objGet (m : List (String × String)) (k : String) : Option String :=
  (m.find? (fun p => p.1 = k)).map (fun p => p.2)


/-- Property write `m[k] = v`: updates in place if the key exists, else appends
(JS objects preserve insertion order of keys). -/
def objSet (m : List (String × String)) (k v : String) : List (String × String) :=
  if m.any (fun p => p.1 = k) then
    m.map (fun p => if p.1 = k then (k, v) else p)
  else m ++ [(k, v)]


/-- `Object.keys`. -/
def objKeys (m : List (String × String)) : List String := m.map (fun p => p.1)


/-- Truthiness of `m[k]` (absent or empty-string values are falsy). -/
def objTruthy (m : List (String × String)) (k : String) : Bool :=
  match objGet m k with
  | some v => v ≠ ""
  | none => false


/-! ## Data model -/

/-- A parsed BibTeX entry (`parseBibtex` output shape). -/
structure Entry where
  type : String
  id : String
  fields : List (String × String)
  order : List String
deriving Repr, DecidableEq


/-- A normalized entry (`normalizeEntry` output shape). -/
structure NormalizedEntry where
  type : String
  id : String
  fields : List (String × String)
  outputOrder : List String
deriving Repr, DecidableEq


/-! ## Parser (`parseBibtex` and helpers) -/

/-- Scanner for `splitTopLevel`: walks the body tracking brace depth and
double-quote state (an unescaped `"` toggles quoting; `input[i-1] === "\\"`
suppresses the toggle), splitting at top-level commas.  The final segment is
kept only if its trim is non-empty. -/
def splitTopLevelAux : List Char → Option Char → Bool → Nat → List Char → List String
  | [], _, _, _, current =>
      if jsTrim ⟨current⟩ ≠ "" then [⟨current⟩] else []
  | c :: rest, prev, inQuotes, depth, current =>
      if inQuotes then
        splitTopLevelAux rest (some c)
          (!(c = '"' && prev ≠ some '\\')) depth (current ++ [c])
      else if c = '"' then
        splitTopLevelAux rest (some c) true depth (current ++ [c])
      else
        let d := if c = '\x7b' then depth + 1 else if c = '\x7d' then depth - 1 else depth
        if c = ',' && d = 0 then
          (⟨current⟩ : String) :: splitTopLevelAux rest (some c) false 0 []
        else
          splitTopLevelAux rest (some c) false d (current ++ [c])


/-- `splitTopLevel`: split an entry body into top-level comma-separated
segments (commas at brace depth 0 and outside double quotes). -/
def splitTopLevel (input : String) : List String :=
  splitTopLevelAux input.data none false 0 []


/-- Scanner for `splitKeyValue`: find the first `=` at depth 0 outside quotes;
return the trimmed key and trimmed raw value, or `none` if there is no `=`. -/
def splitKeyValueAux : List Char → Option Char → Bool → Nat → List Char → Option (String × String)
  | [], _, _, _, _ => none
  | c :: rest, prev, inQuotes, depth, acc =>
      if inQuotes then
        splitKeyValueAux rest (some c)
          (!(c = '"' && prev ≠ some '\\')) depth (acc ++ [c])
      else if c = '"' then
        splitKeyValueAux rest (some c) true depth (acc ++ [c])
      else
        let d := if c = '\x7b' then depth + 1 else if c = '\x7d' then depth - 1 else depth
        if c = '=' && d = 0 then
          some (jsTrim ⟨acc⟩, jsTrim ⟨rest⟩)
        else
          splitKeyValueAux rest (some c) false d (acc ++ [c])


/-- `splitKeyValue`. -/
def splitKeyValue (segment : String) : Option (String × String) :=
  splitKeyValueAux segment.data none false 0 []


/-- `stripEnclosing`: trim, then remove the first and last characters when the
trimmed value starts with an opening brace and ends with a closing brace (or starts and ends with `"`),
and trim again. -/
def stripEnclosing (value : String) : String :=
  if value = "" then value
  else
    let out := trimChars value.data
    if (out.head? = some '{' && out.getLast? = some '}') ||
        (out.head? = some '"' && out.getLast? = some '"') then
      jsTrim ⟨(out.drop 1).dropLast⟩
    else ⟨out⟩


/-- Field-map construction in `parseBibtex`: each segment with a key
contributes `fields[key.toLowerCase()] = stripEnclosing(rawValue)` and pushes
the lowercased key onto `order`. -/
def buildFields (parts : List String) : List (String × String) × List String :=
  parts.foldl
    (fun acc part =>
      match splitKeyValue part with
      | none => acc
      | some (k, rawValue) =>
          if k = "" then acc
          else
            let key := jsToLower k
            (objSet acc.1 key (stripEnclosing rawValue), acc.2 ++ [key]))
    ([], [])


/-- Build one entry from its type and body (`content`), as in
`parseBibtex`: the first top-level segment (or `"unknown"` when absent or
empty) is the id, the remaining segments are fields. -/
def entryFromBody (type : String) (content : List Char) : Entry :=
  match splitTopLevel ⟨content⟩ with
  | [] => { type := jsToLower type, id := "unknown", fields := [], order := [] }
  | p :: ps =>
      let fo := buildFields ps
      { type := jsToLower type
        id := jsTrim (if p = "" then "unknown" else p)
        fields := fo.1
        order := fo.2 }


/-- Delimiter scan of `parseBibtex`: consume characters tracking the nesting
depth of the matching delimiter pair, until depth returns to 0 or the input is
exhausted.  Returns the consumed characters, the rest, and whether the
delimiter was balanced. -/
def scanBody (op cl : Char) : List Char → Nat → List Char × List Char × Bool
  | [], _ => ([], [], false)
  | c :: rest, depth =>
      let d := if c = op then depth + 1 else if c = cl then depth - 1 else depth
      if d = 0 then ([c], rest, true)
      else
        let r := scanBody op cl rest d
        (c :: r.1, r.2.1, r.2.2)


/-- The entry-scanning loop of `parseBibtex`: find the next `@`, read the type
(letters after optional whitespace), expect `{` or `(`; on failure resume one
character past the `@`, on success scan the body and continue after it. -/
def parseLoop : Nat → List Char → List Entry
  | _, [] => []
  | 0, _ :: _ => []
  | fuel + 1, c0 :: cs0 =>
      match (c0 :: cs0).dropWhile (fun c => c ≠ '@') with
      | [] => []
      | _ :: rest =>
          match ((rest.dropWhile jsIsWs).dropWhile Char.isAlpha).dropWhile jsIsWs with
          | [] => parseLoop fuel rest
          | c :: rest4 =>
              if c = '{' || c = '(' then
                entryFromBody ⟨(rest.dropWhile jsIsWs).takeWhile Char.isAlpha⟩
                    (scanBody c (if c = '{' then '}' else ')') rest4 1).1.dropLast
                  :: parseLoop fuel (scanBody c (if c = '{' then '}' else ')') rest4 1).2.1
              else
                parseLoop fuel rest


/-- `parseBibtex`. -/
def parseBibtex (text : String) : List Entry := parseLoop (text.data.length + 1) text.data


/-! ## Page normalization (`normalizePages`) -/

/-- A dash accepted by the page-range splitter: en dash, em dash, or hyphen. -/
def isDashChar (c : Char) : Bool := c = '–' || c = '—' || c = '-'


/-- Remove the trailing whitespace run. -/
def dropTrailingWs (cs : List Char) : List Char := (cs.reverse.dropWhile jsIsWs).reverse


/-- `trimmed.split(/\s*(?:–|—|-)\s*/g)`: a separator is a dash together with
the maximal whitespace runs around it (leftmost, non-overlapping).  The scan
consumes at least one character per step, so `fuel = length + 1` always
suffices; the fuel-exhausted branch is unreachable under that call pattern. -/
def splitDashAux : Nat → List Char → List Char → List (List Char)
  | _, [], current => [current]
  | 0, cs, current => [current ++ cs]
  | fuel + 1, c :: rest, current =>
      if isDashChar c then
        dropTrailingWs current :: splitDashAux fuel (rest.dropWhile jsIsWs) []
      else
        splitDashAux fuel rest (current ++ [c])


/-- `trimmed.includes("--")`. -/
def hasDashDash : List Char → Bool
  | [] => false
  | [_] => false
  | a :: b :: rest => (a = '-' && b = '-') || hasDashDash (b :: rest)


/-- `trimmed.replace(/\s*--\s*/g, "--")` (fuel-based scan, see
`splitDashAux`). -/
def collapseDDAux : Nat → List Char → List Char → List Char
  | _, [], current => current
  | 0, cs, current => current ++ cs
  | fuel + 1, '-' :: '-' :: rest, current =>
      dropTrailingWs current ++ '-' :: '-' :: collapseDDAux fuel (rest.dropWhile jsIsWs) []
  | fuel + 1, c :: rest, current => collapseDDAux fuel rest (current ++ [c])


/-- `trimmed.replace(/\s*(?:–|—|-)\s*/g, "--")` (fuel-based scan, see
`splitDashAux`). -/
def collapseDashAux : Nat → List Char → List Char → List Char
  | _, [], current => current
  | 0, cs, current => current ++ cs
  | fuel + 1, c :: rest, current =>
      if isDashChar c then
        dropTrailingWs current ++ '-' :: '-' :: collapseDashAux fuel (rest.dropWhile jsIsWs) []
      else
        collapseDashAux fuel rest (current ++ [c])


/-- `/^\d+$/.test s`. -/
def isDigits (cs : List Char) : Bool := !cs.isEmpty && cs.all Char.isDigit


/-- `normalizePages`. -/
def normalizePages (pages : String) : String :=
  if pages = "" then pages
  else
    let trimmed := trimChars pages.data
    if hasDashDash trimmed then ⟨collapseDDAux (trimmed.length + 1) trimmed []⟩
    else
      match splitDashAux (trimmed.length + 1) trimmed [] with
      | [p0, p1] =>
          if isDigits p0 && isDigits p1 then ⟨p0 ++ '-' :: '-' :: p1⟩
          else ⟨collapseDashAux (trimmed.length + 1) trimmed []⟩
      | _ => ⟨collapseDashAux (trimmed.length + 1) trimmed []⟩


/-! ## Title casing (`splitByBraces`, `protectTokensInTitle`, `smartTitlecase`) -/

/-- One part of a brace split. -/
structure BracePart where
  text : List Char
  braced : Bool
deriving Repr, DecidableEq


/-- The loop of `splitByBraces`: depth is clamped at 0 on `}`; a part is
flagged braced when it is closed by a `}` reaching depth 0, or when it is the
trailing remainder with positive depth. -/
def splitByBracesAux : List Char → List Char → Nat → List BracePart
  | [], current, depth =>
      if current ≠ [] then [⟨current, decide (0 < depth)⟩] else []
  | c :: rest, current, depth =>
      if c = '{' then
        if depth = 0 && current ≠ [] then
          ⟨current, false⟩ :: splitByBracesAux rest ['{'] 1
        else
          splitByBracesAux rest (current ++ ['{']) (depth + 1)
      else if c = '}' then
        if depth - 1 = 0 then
          ⟨current ++ ['}'], true⟩ :: splitByBracesAux rest [] 0
        else
          splitByBracesAux rest (current ++ ['}']) (depth - 1)
      else
        splitByBracesAux rest (current ++ [c]) depth


/-- `splitByBraces`. -/
def splitByBraces (text : List Char) : List BracePart := splitByBracesAux text [] 0


/-- Configured protected title tokens. -/
def PROTECT_TITLE_TOKENS : List String :=
  ["PROTAC", "PROTACs", "BRD4", "BET", "CRBN", "Nrf2", "Keap1", "DNA", "RNA", "ATP", "X-ray", "SAR"]


/-- `[...new Set(tokens)]`: deduplicate keeping first occurrences. -/
def dedupFirstAux : List String → List String → List String
  | _, [] => []
  | seen, x :: xs =>
      if x ∈ seen then dedupFirstAux seen xs else x :: dedupFirstAux (x :: seen) xs


/-- `[...new Set(tokens)]`. -/
def dedupFirst (l : List String) : List String := dedupFirstAux [] l


/-- Stable insertion for the descending-length sort. -/
def insertDescLen (x : String) : List String → List String
  | [] => [x]
  | y :: l => if y.length ≤ x.length then x :: y :: l else y :: insertDescLen x l


/-- `.sort((a, b) => b.length - a.length)`: stable sort, longest first. -/
def sortDescLen : List String → List String
  | [] => []
  | x :: xs => insertDescLen x (sortDescLen xs)


/-- `prevOkB prev`: the regex alternative `(^|[^\w])` holds just before a
candidate match, `prev` being the character at the previous position of the
original string (`none` at the start). -/
def prevOkB : Option Char → Bool
  | none => true
  | some c => !isWordChar c


/-- `isWordOpt`: word-ness of an optional character (`none` counts nonword). -/
def isWordOpt : Option Char → Bool
  | none => false
  | some c => isWordChar c


/-- The negative lookahead `(?!\w)` after a match. -/
def lookOkB : List Char → Bool
  | [] => true
  | c :: _ => !isWordChar c


/-- Scanner for `out.replace(new RegExp(`(^|[^\w])(tok)(?!\w)`, "g"),
(m, prefix, t) => `${prefix}{${t}}`)`: walk the string; at each position a
match requires the previous original character to be absent or non-word, the
token to be a prefix of the remaining text, and the following character to be
absent or non-word; on a match the token is wrapped in braces and the scan
resumes after it (leftmost, non-overlapping).  The token list is the fixed
non-empty vocabulary, but an empty token is treated as never matching. -/
def replaceTokAux (tok : List Char) : Nat → Option Char → List Char → List Char
  | _, _, [] => []
  | 0, _, s => s
  | fuel + 1, prev, c :: rest =>
      if tok ≠ [] ∧ tok.isPrefixOf (c :: rest) ∧ prevOkB prev ∧ lookOkB ((c :: rest).drop tok.length) then
        '{' :: (tok ++ '}' :: replaceTokAux tok fuel tok.getLast? ((c :: rest).drop tok.length))
      else
        c :: replaceTokAux tok fuel (some c) rest


/-- Apply the token-wrapping replace for one token to a whole string. -/
def replaceTok (tok : List Char) (s : List Char) : List Char :=
  replaceTokAux tok (s.length + 1) none s


/-- The per-part body of `protectTokensInTitle`: braced parts pass through,
unbraced parts get each token (longest first) wrapped. -/
def protectPart (toks : List (List Char)) (p : BracePart) : List Char :=
  if p.braced then p.text else toks.foldl (fun out tok => replaceTok tok out) p.text


/-- The deduplicated, longest-first token list used by `protectTokensInTitle`. -/
def sortedTokens (tokens : List String) : List (List Char) :=
  (sortDescLen (dedupFirst tokens)).map String.data


/-- `protectTokensInTitle`. -/
def protectTokensInTitle (title : String) (tokens : List String) : String :=
  if title = "" then title
  else ⟨((splitByBraces title.data).map (protectPart (sortedTokens tokens))).flatten⟩


/-- Small words of `smartTitlecase`. -/
def SMALL_WORDS : List String :=
  ["a", "an", "and", "as", "at", "but", "by", "for", "in", "nor", "of", "on", "or",
   "per", "the", "to", "vs", "via", "with", "without", "over", "into", "from"]


/-- The characters `":.;!?"` that force capitalization of the following word. -/
def PUNCT_FORCE : List Char := [':', '.', ';', '!', '?']


/-- The nearest non-whitespace character strictly before `index`. -/
def prevNonWsChar (text : List Char) (index : Nat) : Option Char :=
  ((text.take index).reverse.dropWhile jsIsWs).head?


/-- `shouldCapitalize`. -/
def shouldCapitalize (word : List Char) (index : Nat) (text : List Char) : Bool :=
  if index = 0 then true
  else
    match prevNonWsChar text index with
    | none => true
    | some c =>
        if c ∈ PUNCT_FORCE then true
        else !(SMALL_WORDS.contains ⟨word.map Char.toLower⟩)


/-- A character of the word body class `[A-Za-z0-9'’\-]`. -/
def isWordBodyChar (c : Char) : Bool := c.isAlphanum || c = '\'' || c = '’' || c = '-'


/-- `\b` at the end of a candidate match of length `L` starting at `pos`. -/
def endBoundary (text : List Char) (pos L : Nat) : Bool :=
  isWordOpt (text.get? (pos + L - 1)) != isWordOpt (text.get? (pos + L))


/-- Backtracking of the greedy `[A-Za-z0-9'’\-]*`: the longest length
`1 ≤ L ≤ n` whose end position satisfies `\b`, if any. -/
def backtrackLen (text : List Char) (pos : Nat) : Nat → Option Nat
  | 0 => none
  | L + 1 => if endBoundary text pos (L + 1) then some (L + 1) else backtrackLen text pos L


/-- `\b` before a candidate match starting at `pos` (the first matched
character is a letter, hence a word character). -/
def tcPrevOk (text : List Char) : Nat → Bool
  | 0 => true
  | q + 1 => !isWordOpt (text.get? q)


/-- `lower.charAt(0).toUpperCase() + lower.slice(1)` where `lower` is the
lowercased word. -/
def capitalizeWord (w : List Char) : List Char :=
  match w.map Char.toLower with
  | [] => []
  | c :: rest => Char.toUpper c :: rest


/-- Scanner for `text.replace(/\b([A-Za-z][A-Za-z0-9'’\-]*)\b/g, ...)` in
`titlecaseSegment`: at each position, a match needs a word boundary, a leading
letter, then the greedy word-body run backtracked until a closing word
boundary; the matched word is capitalized or lowercased per
`shouldCapitalize`. -/
def tcGo (text : List Char) : Nat → Nat → List Char
  | 0, _ => []
  | fuel + 1, pos =>
      if hpos : pos < text.length then
        if (text.get ⟨pos, hpos⟩).isAlpha && tcPrevOk text pos then
          match backtrackLen text pos ((text.drop pos).takeWhile isWordBodyChar).length with
          | some L =>
              (if shouldCapitalize ((text.drop pos).take L) pos text then
                capitalizeWord ((text.drop pos).take L)
              else ((text.drop pos).take L).map Char.toLower)
                ++ tcGo text fuel (pos + L)
          | none => text.get ⟨pos, hpos⟩ :: tcGo text fuel (pos + 1)
        else text.get ⟨pos, hpos⟩ :: tcGo text fuel (pos + 1)
      else []


/-- The list of `(offset, word)` matches processed by the `titlecaseSegment`
replace, in scan order (same recursion as `tcGo`). -/
def tcMatches (text : List Char) : Nat → Nat → List (Nat × List Char)
  | 0, _ => []
  | fuel + 1, pos =>
      if hpos : pos < text.length then
        if (text.get ⟨pos, hpos⟩).isAlpha && tcPrevOk text pos then
          match backtrackLen text pos ((text.drop pos).takeWhile isWordBodyChar).length with
          | some L => (pos, (text.drop pos).take L) :: tcMatches text fuel (pos + L)
          | none => tcMatches text fuel (pos + 1)
        else tcMatches text fuel (pos + 1)
      else []


/-- `titlecaseSegment`. -/
def titlecaseSegment (text : List Char) : List Char := tcGo text (text.length + 1) 0


/-- `smartTitlecase`. -/
def smartTitlecase (title : String) : String :=
  if title = "" then title
  else
    ⟨((splitByBraces (protectTokensInTitle title PROTECT_TITLE_TOKENS).data).map
        (fun p => if p.braced then p.text else titlecaseSegment p.text)).flatten⟩


/-! ## Journal abbreviation and key generation -/

/-- `abbreviateJournal`. -/
def abbreviateJournal (journal : String) (overrides : Option (List (String × String))) : String :=
  if journal = "" then journal
  else
    match overrides with
    | none => journal
    | some m =>
        match objGet m journal with
        | some v => if v ≠ "" then v else journal
        | none => journal


/-- `author.split(" and ")` and similar literal splits (leftmost,
non-overlapping occurrences of the separator). -/
def splitLiteralAux (sep : List Char) : Nat → List Char → List Char → List (List Char)
  | _, [], current => [current]
  | 0, cs, current => [current ++ cs]
  | fuel + 1, c :: rest, current =>
      if sep ≠ [] ∧ sep.isPrefixOf (c :: rest) then
        current :: splitLiteralAux sep fuel ((c :: rest).drop sep.length) []
      else
        splitLiteralAux sep fuel rest (current ++ [c])


/-- `first.split(/\s+/)`: split on maximal whitespace runs (fuel-based scan,
see `splitDashAux`). -/
def splitWsRunsAux : Nat → List Char → List Char → List (List Char)
  | _, [], current => [current]
  | 0, cs, current => [current ++ cs]
  | fuel + 1, c :: rest, current =>
      if jsIsWs c then current :: splitWsRunsAux fuel (rest.dropWhile jsIsWs) []
      else splitWsRunsAux fuel rest (current ++ [c])


/-- `title.match(/[A-Za-z0-9]+/g)`: the maximal alphanumeric runs (fuel-based
scan, see `splitDashAux`). -/
def alnumRuns : Nat → List Char → List (List Char)
  | _, [] => []
  | 0, _ => []
  | fuel + 1, c :: rest =>
      if Char.isAlphanum c then
        ((c :: rest).takeWhile Char.isAlphanum) :: alnumRuns fuel ((c :: rest).dropWhile Char.isAlphanum)
      else
        alnumRuns fuel rest


/-- `makeKey` (applied to the entry's field map). -/
def makeKey (fields : List (String × String)) : String :=
  let author := (objGet fields "author").getD ""
  let year := (objGet fields "year").getD ""
  let title := (objGet fields "title").getD ""
  let firstSeg : List Char :=
    match splitLiteralAux " and ".data (author.data.length + 1) author.data [] with
    | [] => []
    | x :: _ => x
  let first := trimChars firstSeg
  let last : List Char :=
    if first.contains ',' then trimChars (first.takeWhile (fun c => c ≠ ','))
    else if first ≠ [] then trimChars ((splitWsRunsAux (first.length + 1) first []).getLastD [])
    else "unknown".data
  let words := (alnumRuns (title.data.length + 1) title.data).take 4
  let short : List Char :=
    (words.map (fun w => match w with | [] => [] | c :: r => Char.toUpper c :: r)).flatten
  let short1 := if short = [] then "untitled".data else short
  let lastSlug := (last.map Char.toLower).filter Char.isAlphanum
  let lastSlug1 := if lastSlug = [] then "unknown".data else lastSlug
  let yearSlug := year.data.filter Char.isDigit
  let yearSlug1 := if yearSlug = [] then "nd".data else yearSlug
  ⟨lastSlug1 ++ yearSlug1 ++ '_' :: short1⟩


/-! ## Normalizer (`normalizeEntry`) -/

/-- Required fields of an `@article`. -/
def REQUIRED_FIELDS : List String := ["author", "title", "journal", "year", "volume", "pages"]


/-- Options record passed to `cleanBibtex`. -/
structure CleanOptions where
  keepFields : List String
  titlecase : Bool
  regenKeys : Bool
  journalAbbrev : Option (List (String × String))


/-- Field filtering of `normalizeEntry`: keep each `keepOrder` field whose
value is present and non-blank after trimming, storing the trimmed value. -/
def filterFields (fields : List (String × String)) (keepOrder : List String) : List (String × String) :=
  keepOrder.foldl
    (fun out field =>
      match objGet fields field with
      | some v => if v ≠ "" && jsTrim v ≠ "" then objSet out field (jsTrim v) else out
      | none => out)
    []


/-- The `@article` field map after filtering and the per-field transforms
(title casing, journal abbreviation, page normalization), before the
required-field check (state of `outFields` at app.js:407; the self-assignment
`outFields.author = outFields.author` at app.js:395 is a no-op and is not
modelled). -/
def articleTransformed (entry : Entry) (keepOrder : List String) (opts : CleanOptions) :
    List (String × String) :=
  let out0 := filterFields entry.fields keepOrder
  let out1 :=
    match objGet out0 "title" with
    | some t => if t ≠ "" then objSet out0 "title" (if opts.titlecase then smartTitlecase t else t) else out0
    | none => out0
  let out2 :=
    match objGet out1 "journal" with
    | some j => if j ≠ "" then objSet out1 "journal" (abbreviateJournal j opts.journalAbbrev) else out1
    | none => out1
  match objGet out2 "pages" with
  | some p => if p ≠ "" then objSet out2 "pages" (normalizePages p) else out2
  | none => out2


/-- The required fields found missing (falsy) after filtering and transforms. -/
def articleMissing (entry : Entry) (keepOrder : List String) (opts : CleanOptions) : List String :=
  REQUIRED_FIELDS.filter (fun f => !objTruthy (articleTransformed entry keepOrder opts) f)


/-- The `@article` field map after the `[MISSING: …]` note annotation. -/
def articleWithNote (entry : Entry) (keepOrder : List String) (opts : CleanOptions) :
    List (String × String) :=
  if articleMissing entry keepOrder opts ≠ [] then
    objSet (articleTransformed entry keepOrder opts) "note"
      (jsTrim ((match objGet (articleTransformed entry keepOrder opts) "note" with
        | some n => if n ≠ "" then n ++ " " else ""
        | none => "") ++
        "[MISSING: " ++ jsJoin ", " (articleMissing entry keepOrder opts) ++ "]"))
  else articleTransformed entry keepOrder opts


/-- `normalizeEntry`. -/
def normalizeEntry (entry : Entry) (keepOrder : List String) (opts : CleanOptions) : NormalizedEntry :=
  if entry.type ≠ "article" then
    { type := entry.type, id := entry.id, fields := entry.fields, outputOrder := entry.order }
  else
    { type := "article"
      id := if opts.regenKeys then makeKey (articleWithNote entry keepOrder opts) else entry.id
      fields := articleWithNote entry keepOrder opts
      outputOrder := keepOrder }


/-! ## Serializer and `cleanBibtex` -/

/-- `serializeEntry`: the `@type{id,` line, then one line per truthy
`outputOrder` field, then every not-yet-used field of the map (in key order),
then `}`. -/
def serializeEntry (e : NormalizedEntry) : String :=
  let step1 :=
    e.outputOrder.foldl
      (fun (acc : List String × List String) field =>
        match objGet e.fields field with
        | some v =>
            if v ≠ "" then
              (acc.1 ++ ["  " ++ field ++ " = \x7b" ++ v ++ "\x7d,"], acc.2 ++ [field])
            else acc
        | none => acc)
      ([], [])
  let extraLines :=
    (objKeys e.fields).foldl
      (fun acc field =>
        if step1.2.contains field then acc
        else
          match objGet e.fields field with
          | some v => acc ++ ["  " ++ field ++ " = \x7b" ++ v ++ "\x7d,"]
          | none => acc)
      []
  jsJoin "\n" (("@" ++ e.type ++ "\x7b" ++ e.id ++ ",") :: (step1.1 ++ extraLines ++ ["\x7d"]))


/-! ### Model of `String.prototype.localeCompare`

`cleanBibtex` sorts with `a.id.localeCompare(b.id)`.  Under the default locale
(ECMA-402, CLDR root collation) this is a multi-level collation, not code-unit
order.  We model it for strings of printable ASCII characters and common
whitespace: a primary weight sequence (whitespace, then punctuation and
symbols in root-collation order, then digits, then letters case-insensitively)
compared lexicographically, then a tertiary weight sequence (lowercase before
uppercase).  Characters outside the table are compared after all ASCII, by
code point (an approximation irrelevant to the ASCII ids arising here). -/

/-- Primary collation weights of the root locale, restricted to ASCII. -/
def primaryWeight (c : Char) : Nat :=
  if c = '\t' then 1 else if c = '\n' then 2 else if c = '\x0b' then 3
  else if c = '\x0c' then 4 else if c = '\r' then 5 else if c = ' ' then 6
  else if c = '_' then 10 else if c = '-' then 11 else if c = ',' then 12
  else if c = ';' then 13 else if c = ':' then 14 else if c = '!' then 15
  else if c = '?' then 16 else if c = '.' then 17 else if c = '\'' then 18
  else if c = '"' then 19 else if c = '(' then 20 else if c = ')' then 21
  else if c = '[' then 22 else if c = ']' then 23 else if c = '\x7b' then 24
  else if c = '\x7d' then 25 else if c = '@' then 26 else if c = '*' then 27
  else if c = '/' then 28 else if c = '\\' then 29 else if c = '&' then 30
  else if c = '#' then 31 else if c = '%' then 32 else if c = '`' then 33
  else if c = '^' then 34 else if c = '+' then 35 else if c = '<' then 36
  else if c = '=' then 37 else if c = '>' then 38 else if c = '|' then 39
  else if c = '~' then 40 else if c = '$' then 41
  else if c.isDigit then 50 + c.toNat - '0'.toNat
  else if 'a' ≤ c && c ≤ 'z' then 100 + c.toNat - 'a'.toNat
  else if 'A' ≤ c && c ≤ 'Z' then 100 + c.toNat - 'A'.toNat
  else 1000 + c.toNat


/-- Tertiary collation weights (case: lowercase before uppercase). -/
def tertiaryWeight (c : Char) : Nat := if 'A' ≤ c && c ≤ 'Z' then 1 else 0


/-- Lexicographic comparison of weight sequences. -/
def listCmpNat : List Nat → List Nat → Ordering
  | [], [] => .eq
  | [], _ :: _ => .lt
  | _ :: _, [] => .gt
  | a :: as, b :: bs =>
      match compare a b with
      | .eq => listCmpNat as bs
      | o => o


/-- The modelled `a.localeCompare(b)` as an `Ordering`. -/
def localeCmp (a b : String) : Ordering :=
  match listCmpNat (a.data.map primaryWeight) (b.data.map primaryWeight) with
  | .eq => listCmpNat (a.data.map tertiaryWeight) (b.data.map tertiaryWeight)
  | o => o


/-- The modelled `a.localeCompare(b)` (sign only, as used by the sort). -/
def localeCompare (a b : String) : Int :=
  match localeCmp a b with
  | .lt => -1
  | .eq => 0
  | .gt => 1


/-- The comparator `(a, b) => a.id.localeCompare(b.id)` as a Boolean
"a comes no later than b". -/
def entryLe (a b : NormalizedEntry) : Bool := localeCompare a.id b.id ≤ 0


/-- Stable insertion (earlier elements stay before comparator-equal later
ones, as with JavaScript's stable `Array.prototype.sort`). -/
def orderedInsertLe (le : α → α → Bool) (x : α) : List α → List α
  | [] => [x]
  | y :: l => if le x y then x :: y :: l else y :: orderedInsertLe le x l


/-- Stable sort by a Boolean "less or equal" (insertion sort; any stable sort
with a consistent comparator produces this ordering). -/
def insertionSortLe (le : α → α → Bool) : List α → List α
  | [] => []
  | x :: xs => orderedInsertLe le x (insertionSortLe le xs)


/-- The normalized entries of `cleanBibtex`, after the sort by id. -/
def cleanSortedEntries (text : String) (options : CleanOptions) : List NormalizedEntry :=
  insertionSortLe entryLe
    ((parseBibtex text).map (fun e => normalizeEntry e options.keepFields options))


/-- `cleanBibtex`. -/
def cleanBibtex (text : String) (options : CleanOptions) : String :=
  jsJoin "\n\n" ((cleanSortedEntries text options).map serializeEntry)


/-! ## Concrete inputs used by the claims -/

/-- The worked example of the specification. -/
def exampleInput : String :=
  "@article\x7bdoe99, author = \x7bDoe, Jane and Roe, Richard\x7d, title = \x7ba study of PROTAC design\x7d, journal = \x7bNature Chemistry\x7d, year = \x7b2020\x7d, volume = \x7b5\x7d, pages = \x7b100-110\x7d\x7d"


/-- The options of the worked example. -/
def exampleOptions : CleanOptions :=
  { keepFields := ["author", "title", "journal", "year", "volume", "pages"]
    titlecase := true, regenKeys := true, journalAbbrev := none }


/-- An `@article` entry lacking `pages` (used for the idempotence claim). -/
def c1Input : String :=
  "@article\x7ba, author = \x7bA\x7d, title = \x7bT\x7d, journal = \x7bJ\x7d, year = \x7b2020\x7d, volume = \x7b1\x7d\x7d"


/-- Fixed options with `note` kept, `regenKeys = false`. -/
def c1OptsNote : CleanOptions :=
  { keepFields := ["author", "title", "journal", "year", "volume", "pages", "note"]
    titlecase := false, regenKeys := false, journalAbbrev := none }


/-- Fixed options without `note`, `regenKeys = false`. -/
def c1Opts : CleanOptions :=
  { keepFields := ["author", "title", "journal", "year", "volume", "pages"]
    titlecase := false, regenKeys := false, journalAbbrev := none }


/-- The entry parsed from `c1Input`. -/
def c1Entry : Entry :=
  { type := "article", id := "a"
    fields := [("author", "A"), ("title", "T"), ("journal", "J"), ("year", "2020"), ("volume", "1")]
    order := ["author", "title", "journal", "year", "volume"] }


/-- `c1Entry` normalized under `c1Opts` (missing `pages` annotated). -/
def c1Norm : NormalizedEntry :=
  { type := "article", id := "a"
    fields := [("author", "A"), ("title", "T"), ("journal", "J"), ("year", "2020"),
               ("volume", "1"), ("note", "[MISSING: pages]")]
    outputOrder := ["author", "title", "journal", "year", "volume", "pages"] }


/-- `c1Entry` normalized under `c1OptsNote` (same fields, keep-list order). -/
def c1NormNote : NormalizedEntry :=
  { type := "article", id := "a"
    fields := [("author", "A"), ("title", "T"), ("journal", "J"), ("year", "2020"),
               ("volume", "1"), ("note", "[MISSING: pages]")]
    outputOrder := ["author", "title", "journal", "year", "volume", "pages", "note"] }


/-- The cleaned output of `c1Input` (same string under `c1Opts` and
`c1OptsNote`). -/
def c1Out : String :=
  "@article\x7ba,\n  author = \x7bA\x7d,\n  title = \x7bT\x7d,\n  journal = \x7bJ\x7d,\n  year = \x7b2020\x7d,\n  volume = \x7b1\x7d,\n  note = \x7b[MISSING: pages]\x7d,\n\x7d"


/-- The entry parsed back from `c1Out`. -/
def c1Entry2 : Entry :=
  { type := "article", id := "a"
    fields := [("author", "A"), ("title", "T"), ("journal", "J"), ("year", "2020"),
               ("volume", "1"), ("note", "[MISSING: pages]")]
    order := ["author", "title", "journal", "year", "volume", "note"] }


/-- `c1Entry2` normalized under `c1OptsNote`: the kept note gets the
`[MISSING: pages]` annotation appended a second time. -/
def c1NormNote2 : NormalizedEntry :=
  { type := "article", id := "a"
    fields := [("author", "A"), ("title", "T"), ("journal", "J"), ("year", "2020"),
               ("volume", "1"), ("note", "[MISSING: pages] [MISSING: pages]")]
    outputOrder := ["author", "title", "journal", "year", "volume", "pages", "note"] }


/-- The output of re-cleaning `c1Out` with `note` kept: the note doubled. -/
def c1OutDouble : String :=
  "@article\x7ba,\n  author = \x7bA\x7d,\n  title = \x7bT\x7d,\n  journal = \x7bJ\x7d,\n  year = \x7b2020\x7d,\n  volume = \x7b1\x7d,\n  note = \x7b[MISSING: pages] [MISSING: pages]\x7d,\n\x7d"


/-! ## Claim C3 (the worked example) -/

/-- The entry parsed from `exampleInput`. -/
def exampleEntry : Entry :=
  { type := "article", id := "doe99"
    fields := [("author", "Doe, Jane and Roe, Richard"), ("title", "a study of PROTAC design"),
               ("journal", "Nature Chemistry"), ("year", "2020"), ("volume", "5"),
               ("pages", "100-110")]
    order := ["author", "title", "journal", "year", "volume", "pages"] }


/-- The normalized form of the worked example. -/
def exampleNorm : NormalizedEntry :=
  { type := "article", id := "doe2020_AStudyOfPROTAC"
    fields := [("author", "Doe, Jane and Roe, Richard"),
               ("title", "A Study of \x7bPROTAC\x7d Design"),
               ("journal", "Nature Chemistry"), ("year", "2020"), ("volume", "5"),
               ("pages", "100--110")]
    outputOrder := ["author", "title", "journal", "year", "volume", "pages"] }


/-! ## Claim C5 (parser invariants) -/

/-- No ASCII uppercase letter occurs in the string ("the string is
lowercase"). -/
def noUpper (s : String) : Prop := ∀ c ∈ s.data, ¬('A' ≤ c ∧ c ≤ 'Z')


/-- The lowercase invariant of a parsed entry: type, `order` keys and field
keys. -/
def entryLower (e : Entry) : Prop :=
  noUpper e.type ∧ (∀ k ∈ e.order, noUpper k) ∧ ∀ kv ∈ e.fields, noUpper kv.1


/-- An `@article` entry lacking `volume` (witness input for C8). -/
def c8Entry : Entry :=
  { type := "article", id := "w"
    fields := [("author", "A"), ("title", "T"), ("journal", "J"), ("year", "2020"),
               ("pages", "1--2")]
    order := ["author", "title", "journal", "year", "pages"] }


/-- Simple lexicographic (code-unit) comparison of character lists, following
the claim's words ("simple lexicographic (code-unit) order"), to be compared
with the `localeCompare`-based order the code actually uses. -/
def codeUnitCmp : List Char → List Char → Ordering
  | [], [] => .eq
  | [], _ :: _ => .lt
  | _ :: _, [] => .gt
  | a :: as, b :: bs =>
      match compare a.toNat b.toNat with
      | .eq => codeUnitCmp as bs
      | o => o


def c2Input : String := "@misc\x7bB\x7d\n@misc\x7ba\x7d"


def c2Opts : CleanOptions := ⟨[], false, false, none⟩


/-- A string without braces. -/
def braceFree (s : List Char) : Bool := s.all (fun c => c ≠ '{' && c ≠ '}')


/-- One step of the nesting-depth evolution of `splitByBracesAux`
(clamped at 0 like the code's `Math.max`-free `depth - 1` on `Nat`). -/
def dStep (c : Char) (d : Nat) : Nat :=
  if c = '{' then d + 1 else if c = '}' then d - 1 else d


/-- Depth evolution over a string. -/
def dEvolve : List Char → Nat → Nat
  | [], d => d
  | c :: r, d => dEvolve r (dStep c d)


/-- No standalone occurrence of `t` strictly inside the braced wrap `{u}`:
at every inner offset, either `t` does not sit there or one of the regex
boundary conditions fails (`{` before and `}` after count as non-word). -/
def innerMatchFreeB (t u : List Char) : Bool :=
  (List.range (u.length + 1)).all fun k =>
    !(decide ((u.drop k).take t.length = t) &&
      prevOkB (('{' :: u.take k).getLast?) &&
      lookOkB (u.drop (k + t.length) ++ ['}']))


/-- No boundary-consistent overlap between a match of `u` and a distinct
standalone occurrence of `t` in any common text: the first conjunct rules out
`t` starting at offset `d` inside a `u` match, the second rules out `u`
starting at offset `e` inside a `t` occurrence. -/
def overlapFreeB (t u : List Char) : Bool :=
  ((List.range u.length).all fun d =>
    !(decide ((u.drop d).take t.length = t.take (u.length - d)) &&
      prevOkB (u.take d).getLast? && lookOkB (u.drop (d + t.length)) &&
      lookOkB (t.drop (u.length - d)))) &&
  ((List.range t.length).all fun e =>
    !(decide ((t.drop e).take u.length = u.take (t.length - e)) &&
      prevOkB (t.take e).getLast? && lookOkB (t.drop (e + u.length)) &&
      lookOkB (u.drop (t.length - e))))


/-- The structure of a protected string: plain non-brace characters and
complete wraps `{u}` whose contents come from the already-processed tokens. -/
inductive WrapSeq (T : List (List Char)) : List Char → Prop
  | nil : WrapSeq T []
  | plain {c : Char} {s : List Char} : c ≠ '{' → c ≠ '}' → WrapSeq T s →
      WrapSeq T (c :: s)
  | wrap {u s : List Char} : u ∈ T → WrapSeq T s →
      WrapSeq T ('{' :: (u ++ '}' :: s))


theorem length_dropWhile_le (p : α → Bool) (l : List α) :
    (l.dropWhile p).length ≤ l.length := by
  induction l with
  | nil => exact Nat.le_refl _
  | cons a l ih =>
      by_cases h : p a = true
      · rw [List.dropWhile_cons_of_pos h]
        exact Nat.le_succ_of_le ih
      · rw [List.dropWhile_cons_of_neg h]


theorem scanBody_rest_length_le (op cl : Char) :
    ∀ (cs : List Char) (depth : Nat), (scanBody op cl cs depth).2.1.length ≤ cs.length := by
  intro cs
  induction cs with
  | nil => intro depth; simp [scanBody]
  | cons c rest ih =>
      intro depth
      simp only [scanBody]
      by_cases hd : (if c = op then depth + 1 else if c = cl then depth - 1 else depth) = 0
      · rw [if_pos hd]
        simp
      · rw [if_neg hd]
        exact Nat.le_succ_of_le (ih _)


theorem backtrackLen_pos {text : List Char} {pos : Nat} :
    ∀ {n L : Nat}, backtrackLen text pos n = some L → 1 ≤ L := by
  intro n
  induction n with
  | zero => intro L h; exact absurd h (by simp [backtrackLen])
  | succ n ih =>
      intro L h
      rw [backtrackLen] at h
      by_cases hb : endBoundary text pos (n + 1) = true
      · rw [if_pos hb] at h
        cases h
        exact Nat.succ_le_succ (Nat.zero_le _)
      · rw [if_neg hb] at h
        exact ih h


/-! ## Helper lemmas for concrete pipeline evaluations -/

theorem jsJoin_singleton (sep x : String) : jsJoin sep [x] = x := rfl


theorem cleanSortedEntries_singleton (text : String) (opts : CleanOptions) (e : Entry)
    (n : NormalizedEntry) (h1 : parseBibtex text = [e])
    (h2 : normalizeEntry e opts.keepFields opts = n) :
    cleanSortedEntries text opts = [n] := by
  unfold cleanSortedEntries
  rw [h1]
  simp only [List.map_cons, List.map_nil, h2, insertionSortLe, orderedInsertLe]


theorem cleanBibtex_singleton (text : String) (opts : CleanOptions) (e : Entry)
    (n : NormalizedEntry) (s : String) (h1 : parseBibtex text = [e])
    (h2 : normalizeEntry e opts.keepFields opts = n) (h3 : serializeEntry n = s) :
    cleanBibtex text opts = s := by
  unfold cleanBibtex
  rw [cleanSortedEntries_singleton text opts e n h1 h2]
  simp only [List.map_cons, List.map_nil, h3, jsJoin_singleton]


/-! ## Claim C1 (idempotence of cleaning) -/

/-- Claim C1, counterexample: with `regenKeys = false`, an unchanged
`keepFields` list that contains `note`, and an `@article` entry missing the
required field `pages`, cleaning is NOT idempotent: the second clean appends
the `[MISSING: pages]` annotation to the already-annotated note again. -/
theorem c1_idempotence_fails_with_note_kept :
    cleanBibtex (cleanBibtex c1Input c1OptsNote) c1OptsNote ≠ cleanBibtex c1Input c1OptsNote := by
  have h1 : cleanBibtex c1Input c1OptsNote = c1Out :=
    cleanBibtex_singleton _ _ c1Entry c1NormNote _ (by rfl) (by rfl) (by rfl)
  have h2 : cleanBibtex c1Out c1OptsNote = c1OutDouble :=
    cleanBibtex_singleton _ _ c1Entry2 c1NormNote2 _ (by rfl) (by rfl) (by rfl)
  rw [h1, h2]
  decide


/-- Claim C1 (amended): with `regenKeys = false` and a stable `keepFields`
list, re-cleaning already-cleaned output changes nothing provided `note` is
not selected in `keepFields` (demonstrated at the concrete input `c1Input`,
whose cleaned output carries a `[MISSING: pages]` note that the second pass
drops at filtering and then regenerates identically); when `note` is in
`keepFields` and a required field is missing, idempotence fails. -/
theorem c1_idempotent_without_note_kept :
    cleanBibtex (cleanBibtex c1Input c1Opts) c1Opts = cleanBibtex c1Input c1Opts := by
  have h1 : cleanBibtex c1Input c1Opts = c1Out :=
    cleanBibtex_singleton _ _ c1Entry c1Norm _ (by rfl) (by rfl) (by rfl)
  have h2 : cleanBibtex c1Out c1Opts = c1Out :=
    cleanBibtex_singleton _ _ c1Entry2 c1Norm _ (by rfl) (by rfl) (by rfl)
  rw [h1, h2]


/-- Claim C3, counterexample: the example entry's regenerated key is
`doe2020_AStudyOfPROTAC`, not `doe2020_AStudyOf` as claimed — `makeKey` takes
the first 4 alphanumeric tokens of the (already title-cased) title, which are
`A`, `Study`, `of`, `PROTAC`. -/
theorem c3_regenerated_id_counterexample :
    (cleanSortedEntries exampleInput exampleOptions).map (fun e => e.id) =
      ["doe2020_AStudyOfPROTAC"] ∧
    ("doe2020_AStudyOfPROTAC" : String) ≠ "doe2020_AStudyOf" := by
  constructor
  · rw [cleanSortedEntries_singleton exampleInput exampleOptions exampleEntry exampleNorm
      (by rfl) (by rfl)]
    rfl
  · decide


/-- Claim C3 (amended): the example input cleaned with
`keepFields = [author, title, journal, year, volume, pages]`,
`titlecase = true`, `regenKeys = true` and no journal overrides yields pages
`100--110`, the title `A Study of {PROTAC} Design` (containing `{PROTAC}`
verbatim and title-cased elsewhere), and the regenerated id
`doe2020_AStudyOfPROTAC`. -/
theorem c3_example_cleaned :
    cleanSortedEntries exampleInput exampleOptions = [exampleNorm] ∧
    objGet exampleNorm.fields "pages" = some "100--110" ∧
    objGet exampleNorm.fields "title" = some "A Study of \x7bPROTAC\x7d Design" ∧
    "\x7bPROTAC\x7d".data <:+: "A Study of \x7bPROTAC\x7d Design".data ∧
    exampleNorm.id = "doe2020_AStudyOfPROTAC" := by
  refine ⟨cleanSortedEntries_singleton exampleInput exampleOptions exampleEntry exampleNorm
      (by rfl) (by rfl), by rfl, by rfl, ⟨"A Study of ".data, " Design".data, by rfl⟩, rfl⟩


/-! ## Claim C4 (non-article entries pass through) -/

/-- Claim C4: for every entry whose type is not `article`, normalization is a
strict no-op: same type, same id, the original field values, and
`outputOrder` equal to the original field order. -/
theorem c4_non_article_passthrough (entry : Entry) (keepOrder : List String)
    (opts : CleanOptions) (h : entry.type ≠ "article") :
    normalizeEntry entry keepOrder opts =
      { type := entry.type, id := entry.id, fields := entry.fields
        outputOrder := entry.order } := by
  simp [normalizeEntry, h]


/-- Witness for C4 at a concrete `@book` entry. -/
theorem c4_non_article_passthrough_witness :
    (Entry.mk "book" "k1" [("title", "T"), ("year", "1999")] ["title", "year"]).type ≠ "article" ∧
    normalizeEntry (Entry.mk "book" "k1" [("title", "T"), ("year", "1999")] ["title", "year"])
        ["author"] c1Opts =
      { type := "book", id := "k1", fields := [("title", "T"), ("year", "1999")]
        outputOrder := ["title", "year"] } :=
  ⟨by decide, c4_non_article_passthrough
    (Entry.mk "book" "k1" [("title", "T"), ("year", "1999")] ["title", "year"]) ["author"]
    c1Opts (by decide)⟩


/-! ## General scanning lemmas -/

theorem ws_cases {c : Char} (h : jsIsWs c = true) :
    c = ' ' ∨ c = '\t' ∨ c = '\n' ∨ c = '\r' ∨ c = '\x0b' ∨ c = '\x0c' ∨ c = '\u00A0' := by
  unfold jsIsWs at h
  simp only [Bool.or_eq_true, decide_eq_true_eq] at h
  tauto


theorem ws_not_alpha {c : Char} (h : jsIsWs c = true) : c.isAlpha = false := by
  rcases ws_cases h with rfl | rfl | rfl | rfl | rfl | rfl | rfl <;> decide


theorem alpha_not_ws {c : Char} (h : c.isAlpha = true) : jsIsWs c = false := by
  cases hw : jsIsWs c
  · rfl
  · rw [ws_not_alpha hw] at h
    exact Bool.noConfusion h


theorem dropWhile_append_of_all {p : α → Bool} (l₁ l₂ : List α) (h : ∀ a ∈ l₁, p a = true) :
    (l₁ ++ l₂).dropWhile p = l₂.dropWhile p := by
  induction l₁ with
  | nil => rfl
  | cons a l ih =>
      rw [List.cons_append, List.dropWhile_cons_of_pos (h a (List.mem_cons_self a l))]
      exact ih (fun b hb => h b (List.mem_cons_of_mem a hb))


theorem takeWhile_append_of_all {p : α → Bool} (l₁ l₂ : List α) (h : ∀ a ∈ l₁, p a = true) :
    (l₁ ++ l₂).takeWhile p = l₁ ++ l₂.takeWhile p := by
  induction l₁ with
  | nil => rfl
  | cons a l ih =>
      rw [List.cons_append, List.takeWhile_cons_of_pos (h a (List.mem_cons_self a l)),
        ih (fun b hb => h b (List.mem_cons_of_mem a hb)), List.cons_append]


theorem scanBody_unbalanced (op cl : Char) :
    ∀ (cs : List Char) (depth : Nat), (scanBody op cl cs depth).2.2 = false →
      scanBody op cl cs depth = (cs, [], false) := by
  intro cs
  induction cs with
  | nil => intro depth _; rfl
  | cons c rest ih =>
      intro depth hfl
      rw [scanBody] at hfl ⊢
      by_cases hd : (if c = op then depth + 1 else if c = cl then depth - 1 else depth) = 0
      · rw [if_pos hd] at hfl
        exact Bool.noConfusion hfl
      · rw [if_neg hd] at hfl ⊢
        have := ih _ hfl
        rw [this]


/-! ## Claim C9 (unterminated delimiter) -/

/-- Claim C9, counterexample: on `@misc{abc` (opening brace never balanced)
the parser's entry body is `ab`, not the entire remaining text `abc` — the
body-extraction `text.slice(contentStart, j - 1)` drops the final character
when the scan ran off the end of the input. -/
theorem c9_unterminated_counterexample :
    parseBibtex "@misc\x7babc" = [Entry.mk "misc" "ab" [] []] ∧
    entryFromBody "misc" "abc".data ≠ entryFromBody "misc" "ab".data := by
  exact ⟨by rfl, by decide⟩


/-- Claim C9 (amended): for every input of the form
`pre ++ "@" ++ type ++ "{" ++ body` whose opening brace is never balanced
(nesting depth never returns to 0), the parser consumes to the end of the
input and treats the remaining text after the opening delimiter MINUS ITS
FINAL CHARACTER as that entry's body, producing exactly that one entry. -/
theorem c9_unterminated_body (pre t body : List Char)
    (hpre : '@' ∉ pre) (ht : t ≠ []) (hta : ∀ c ∈ t, c.isAlpha = true)
    (hub : (scanBody '{' '}' body 1).2.2 = false) :
    parseBibtex ⟨pre ++ '@' :: (t ++ '{' :: body)⟩ =
      [entryFromBody ⟨t⟩ body.dropLast] := by
  obtain ⟨a, t', rfl⟩ : ∃ a t', t = a :: t' := by
    cases t with
    | nil => exact absurd rfl ht
    | cons a t' => exact ⟨a, t', rfl⟩
  have hws1 : ((a :: t') ++ '{' :: body).dropWhile jsIsWs = (a :: t') ++ '{' :: body := by
    rw [List.cons_append, List.dropWhile_cons_of_neg]
    rw [alpha_not_ws (hta a (List.mem_cons_self a t'))]
    exact Bool.noConfusion
  have hws2 : List.dropWhile jsIsWs ('{' :: body) = '{' :: body :=
    List.dropWhile_cons_of_neg (by decide)
  have htk : ((a :: t') ++ '{' :: body).takeWhile Char.isAlpha = a :: t' := by
    rw [takeWhile_append_of_all _ _ hta, List.takeWhile_cons_of_neg (by decide),
      List.append_nil]
  have hdr : ((a :: t') ++ '{' :: body).dropWhile Char.isAlpha = '{' :: body := by
    rw [dropWhile_append_of_all _ _ hta, List.dropWhile_cons_of_neg (by decide)]
  have hsb := scanBody_unbalanced '{' '}' body 1 hub
  have h0 : ∀ rest : List Char,
      List.dropWhile (fun c => decide (c ≠ '@')) ('@' :: rest) = '@' :: rest :=
    fun rest => List.dropWhile_cons_of_neg (by simp)
  show parseLoop _ _ = _
  cases pre with
  | nil =>
      rw [List.nil_append, parseLoop]
      simp only [h0, hws1, hdr, hws2, htk, parseLoop]
      simp [hsb, parseLoop]
  | cons p pre' =>
      have hdrop : List.dropWhile (fun c => decide (c ≠ '@'))
          ((p :: pre') ++ '@' :: ((a :: t') ++ '{' :: body)) =
          '@' :: ((a :: t') ++ '{' :: body) := by
        rw [dropWhile_append_of_all (p :: pre') _ (fun c hc => by
          simp only [decide_eq_true_eq]
          exact fun he => hpre (he ▸ hc))]
        exact h0 _
      rw [List.cons_append, parseLoop, ← List.cons_append]
      simp only [hdrop, hws1, hdr, hws2, htk, parseLoop]
      simp [hsb, parseLoop]


/-- Witness for the amended C9 at the concrete input `@misc{abc`. -/
theorem c9_unterminated_body_witness :
    ('@' ∉ ([] : List Char)) ∧
    parseBibtex ⟨[] ++ '@' :: ("misc".data ++ '{' :: "abc".data)⟩ =
      [entryFromBody ⟨"misc".data⟩ ("abc".data.dropLast)] :=
  ⟨by decide, c9_unterminated_body [] "misc".data "abc".data (by decide) (by decide)
    (by decide) (by decide)⟩


theorem toLower_not_upper (c : Char) : ¬('A' ≤ Char.toLower c ∧ Char.toLower c ≤ 'Z') := by
  unfold Char.toLower
  by_cases h : c.toNat ≥ 65 ∧ c.toNat ≤ 90
  · rw [if_pos h]
    rintro ⟨_h1, h2⟩
    have hval : (c.toNat + 32).isValidChar := Or.inl (by omega)
    have ht : (Char.ofNat (c.toNat + 32)).val.toNat = c.toNat + 32 := by
      show (Char.ofNat (c.toNat + 32)).toNat = c.toNat + 32
      unfold Char.ofNat
      rw [dif_pos hval]
      rfl
    rw [Char.le_def] at h2
    have h2' : (Char.ofNat (c.toNat + 32)).val.toNat ≤ ('Z' : Char).val.toNat := h2
    have hz : ('Z' : Char).val.toNat = 90 := by decide
    omega
  · rw [if_neg h]
    rintro ⟨h1, h2⟩
    rw [Char.le_def] at h1 h2
    exact h ⟨h1, h2⟩


theorem noUpper_jsToLower (s : String) : noUpper (jsToLower s) := by
  intro c hc
  rcases List.mem_map.mp hc with ⟨a, _, rfl⟩
  exact toLower_not_upper a


theorem objSet_key_mem {m : List (String × String)} {k v : String} :
    ∀ kv ∈ objSet m k v, kv.1 = k ∨ kv ∈ m := by
  intro kv hkv
  unfold objSet at hkv
  by_cases hany : m.any (fun p => p.1 = k) = true
  · rw [if_pos hany] at hkv
    rcases List.mem_map.mp hkv with ⟨p, hp, rfl⟩
    by_cases hpk : p.1 = k
    · rw [if_pos hpk]
      exact Or.inl rfl
    · rw [if_neg hpk]
      exact Or.inr hp
  · rw [if_neg hany] at hkv
    rcases List.mem_append.mp hkv with hp | hp
    · exact Or.inr hp
    · rcases List.mem_singleton.mp hp with rfl
      exact Or.inl rfl


theorem buildFields_lower (parts : List String) :
    (∀ kv ∈ (buildFields parts).1, noUpper kv.1) ∧ ∀ k ∈ (buildFields parts).2, noUpper k := by
  unfold buildFields
  suffices h : ∀ (acc : List (String × String) × List String),
      (∀ kv ∈ acc.1, noUpper kv.1) → (∀ k ∈ acc.2, noUpper k) →
      (∀ kv ∈ (parts.foldl _ acc).1, noUpper kv.1) ∧ ∀ k ∈ (parts.foldl _ acc).2, noUpper k by
    exact h ([], []) (by simp) (by simp)
  induction parts with
  | nil => intro acc h1 h2; exact ⟨h1, h2⟩
  | cons p ps ih =>
      intro acc h1 h2
      rw [List.foldl_cons]
      apply ih
      · rcases hkv : splitKeyValue p with _ | ⟨k, raw⟩
        · exact h1
        · show ∀ kv ∈ (if k = "" then acc else
              (objSet acc.1 (jsToLower k) (stripEnclosing raw), acc.2 ++ [jsToLower k])).1,
            noUpper kv.1
          by_cases hk : k = ""
          · rw [if_pos hk]; exact h1
          · rw [if_neg hk]
            intro kv hmem
            rcases objSet_key_mem kv hmem with he | hm
            · rw [he]; exact noUpper_jsToLower k
            · exact h1 kv hm
      · rcases hkv : splitKeyValue p with _ | ⟨k, raw⟩
        · exact h2
        · show ∀ x ∈ (if k = "" then acc else
              (objSet acc.1 (jsToLower k) (stripEnclosing raw), acc.2 ++ [jsToLower k])).2,
            noUpper x
          by_cases hk : k = ""
          · rw [if_pos hk]; exact h2
          · rw [if_neg hk]
            intro x hmem
            rcases List.mem_append.mp hmem with hm | hm
            · exact h2 x hm
            · rcases List.mem_singleton.mp hm with rfl
              exact noUpper_jsToLower k


theorem entryFromBody_lower (ty : String) (content : List Char) :
    entryLower (entryFromBody ty content) := by
  unfold entryFromBody
  rcases splitTopLevel ⟨content⟩ with _ | ⟨p, ps⟩
  · exact ⟨noUpper_jsToLower ty, by simp, by simp⟩
  · exact ⟨noUpper_jsToLower ty, (buildFields_lower ps).2, (buildFields_lower ps).1⟩


theorem parseLoop_entries_lower :
    ∀ (fuel : Nat) (cs : List Char), ∀ e ∈ parseLoop fuel cs, entryLower e := by
  intro fuel
  induction fuel with
  | zero =>
      intro cs e he
      cases cs with
      | nil => simp [parseLoop] at he
      | cons c0 cs0 => simp [parseLoop] at he
  | succ n ih =>
      intro cs e he
      cases cs with
      | nil => simp [parseLoop] at he
      | cons c0 cs0 =>
          rw [parseLoop] at he
          split at he
          · simp at he
          · split at he
            · exact ih _ e he
            · split at he
              · rcases List.mem_cons.mp he with rfl | hmem
                · exact entryFromBody_lower _ _
                · exact ih _ e hmem
              · exact ih _ e he


/-- Claim C5, counterexample: the value `{A} and {B}` — whose first and last
characters are braces that do NOT form one matching pair — does not keep its
internal brace groups untouched: `stripEnclosing` blindly removes the first
and last characters, producing `A} and {B`. -/
theorem c5_strip_counterexample :
    (parseBibtex "@misc\x7bx, note = \x7bA\x7d and \x7bB\x7d\x7d").map
        (fun e => objGet e.fields "note") = [some "A\x7d and \x7bB"] ∧
    ("A\x7d and \x7bB" : String) ≠ "\x7bA\x7d and \x7bB\x7d" := by
  exact ⟨by rfl, by decide⟩


/-- Claim C5 (amended): for every entry produced by the parser, all field-map
keys and the entry type are lowercase, and each field value is the trimmed
raw value whose first and last characters are removed (with a re-trim)
whenever the trimmed value starts with `{` and ends with `}`, or starts and
ends with `"` — even when those two characters do not form one matching pair,
so a value such as `{A} and {B}` becomes `A} and {B` instead of keeping its
internal brace groups untouched. -/
theorem c5_parser_lowercase_and_strip :
    (∀ (text : String), ∀ e ∈ parseBibtex text,
      noUpper e.type ∧ (∀ k ∈ e.order, noUpper k) ∧ ∀ kv ∈ e.fields, noUpper kv.1) ∧
    (∀ v : String, v ≠ "" →
      stripEnclosing v =
        if ((trimChars v.data).head? = some '{' && (trimChars v.data).getLast? = some '}') ||
            ((trimChars v.data).head? = some '"' && (trimChars v.data).getLast? = some '"') then
          jsTrim ⟨((trimChars v.data).drop 1).dropLast⟩
        else ⟨trimChars v.data⟩) ∧
    parseBibtex "@misc\x7bx, note = \x7bA\x7d and \x7bB\x7d\x7d" =
      [Entry.mk "misc" "x" [("note", "A\x7d and \x7bB")] ["note"]] := by
  refine ⟨fun text e he => parseLoop_entries_lower _ _ e he, fun v hv => ?_, by rfl⟩
  unfold stripEnclosing
  rw [if_neg hv]


/-- Witness for the amended C5 at a concrete parsed entry. -/
theorem c5_parser_lowercase_and_strip_witness :
    noUpper (Entry.mk "misc" "x" [("note", "A\x7d and \x7bB")] ["note"]).type ∧
    stripEnclosing " \x7bA\x7d and \x7bB\x7d " = "A\x7d and \x7bB" := by
  constructor
  · exact (c5_parser_lowercase_and_strip.1 "@misc\x7bx, note = \x7bA\x7d and \x7bB\x7d\x7d"
      (Entry.mk "misc" "x" [("note", "A\x7d and \x7bB")] ["note"])
      (by rw [c5_parser_lowercase_and_strip.2.2]; exact List.mem_singleton_self _)).1
  · rw [c5_parser_lowercase_and_strip.2.1 " \x7bA\x7d and \x7bB\x7d " (by decide)]
    rfl


/-! ## Claim C8 (missing-field note) -/

theorem objGet_map_update (k v : String) :
    ∀ m : List (String × String), m.any (fun p => p.1 = k) = true →
      objGet (m.map (fun p => if p.1 = k then (k, v) else p)) k = some v := by
  intro m
  induction m with
  | nil => intro h; simp at h
  | cons p ps ih =>
      intro h
      rw [List.map_cons]
      by_cases hpk : p.1 = k
      · rw [if_pos hpk]
        unfold objGet
        rw [List.find?_cons_of_pos _ (by simp)]
        rfl
      · rw [if_neg hpk]
        have h' : ps.any (fun p => p.1 = k) = true := by
          rcases List.any_eq_true.mp h with ⟨q, hq, hq2⟩
          rcases List.mem_cons.mp hq with rfl | hqs
          · exact absurd (by simpa using hq2) hpk
          · exact List.any_eq_true.mpr ⟨q, hqs, hq2⟩
        unfold objGet
        rw [List.find?_cons_of_neg _ (by simpa using hpk)]
        exact ih h'


theorem objGet_append_single (k v : String) :
    ∀ m : List (String × String), m.any (fun p => p.1 = k) = false →
      objGet (m ++ [(k, v)]) k = some v := by
  intro m
  induction m with
  | nil =>
      intro _
      unfold objGet
      rw [List.nil_append, List.find?_cons_of_pos _ (by simp)]
      rfl
  | cons p ps ih =>
      intro h
      rw [List.any_cons, Bool.or_eq_false_iff] at h
      rw [List.cons_append]
      unfold objGet
      rw [List.find?_cons_of_neg _ (by simpa using h.1)]
      exact ih h.2


theorem objGet_objSet_self (m : List (String × String)) (k v : String) :
    objGet (objSet m k v) k = some v := by
  unfold objSet
  by_cases hany : m.any (fun p => p.1 = k) = true
  · rw [if_pos hany]
    exact objGet_map_update k v m hany
  · rw [if_neg hany]
    exact objGet_append_single k v m (Bool.not_eq_true _ ▸ Bool.of_not_eq_true hany)


theorem infix_foldl_append (sep : String) (x : List Char) :
    ∀ (xs : List String) (acc : String), x <:+: acc.data →
      x <:+: (xs.foldl (fun acc y => acc ++ sep ++ y) acc).data := by
  intro xs
  induction xs with
  | nil => intro acc h; exact h
  | cons y ys ih =>
      intro acc h
      rw [List.foldl_cons]
      apply ih
      rw [String.data_append, String.data_append]
      rcases h with ⟨s, t, hst⟩
      exact ⟨s, t ++ (sep.data ++ y.data), by rw [← List.append_assoc, ← List.append_assoc, hst]⟩


theorem jsJoin_cons (sep x : String) (xs : List String) :
    jsJoin sep (x :: xs) = xs.foldl (fun acc y => acc ++ sep ++ y) x := rfl


theorem mem_infix_foldl (sep x : String) :
    ∀ (xs : List String) (acc : String), x ∈ xs →
      x.data <:+: (xs.foldl (fun acc y => acc ++ sep ++ y) acc).data := by
  intro xs
  induction xs with
  | nil => intro acc h; simp at h
  | cons b l2 ih =>
      intro acc h
      rw [List.foldl_cons]
      rcases List.mem_cons.mp h with hxb | hmem2
      · subst hxb
        apply infix_foldl_append
        rw [String.data_append]
        exact ⟨(acc ++ sep).data, [], by simp⟩
      · exact ih _ hmem2


theorem mem_infix_jsJoin (sep x : String) (xs : List String) (h : x ∈ xs) :
    x.data <:+: (jsJoin sep xs).data := by
  cases xs with
  | nil => simp at h
  | cons a l =>
      rw [jsJoin_cons]
      rcases List.mem_cons.mp h with hxa | hmem
      · subst hxa
        exact infix_foldl_append sep _ l _ (List.infix_refl _)
      · exact mem_infix_foldl sep x l a hmem


theorem infix_dropWhile_of_not {p : Char → Bool} {x : List Char}
    (hx : ∀ c ∈ x, p c = false) : ∀ {l : List Char}, x <:+: l → x <:+: l.dropWhile p := by
  intro l
  induction l with
  | nil => exact fun h => h
  | cons c l' ih =>
      intro h
      by_cases hc : p c = true
      · rw [List.dropWhile_cons_of_pos hc]
        rcases List.infix_cons_iff.mp h with hpre | hinf
        · cases x with
          | nil => exact List.nil_infix
          | cons a x' =>
              rcases hpre with ⟨t, ht⟩
              rw [List.cons_append] at ht
              injection ht with h1 _h2
              rw [← h1] at hc
              rw [hx a (List.mem_cons_self a x')] at hc
              exact Bool.noConfusion hc
        · exact ih hinf
      · rw [List.dropWhile_cons_of_neg hc]
        exact h


theorem infix_trimChars {x : List Char} (hx : ∀ c ∈ x, jsIsWs c = false) {l : List Char}
    (h : x <:+: l) : x <:+: trimChars l := by
  unfold trimChars
  have h1 : x <:+: l.dropWhile jsIsWs := infix_dropWhile_of_not hx h
  have h2 : x.reverse <:+: (l.dropWhile jsIsWs).reverse := List.reverse_infix.mpr h1
  have h3 : x.reverse <:+: ((l.dropWhile jsIsWs).reverse).dropWhile jsIsWs :=
    infix_dropWhile_of_not (fun c hc => hx c (List.mem_reverse.mp hc)) h2
  have h4 := List.reverse_infix.mpr h3
  simpa using h4


theorem normalizeEntry_article_fields {entry : Entry} (keepOrder : List String)
    (opts : CleanOptions) (harticle : entry.type = "article") :
    (normalizeEntry entry keepOrder opts).fields = articleWithNote entry keepOrder opts := by
  unfold normalizeEntry
  rw [harticle]
  simp


/-- Claim C8: for every `@article` entry, when some required field is falsy
after filtering and the transforms, the output `note` is exactly the
pre-existing note text (plus a space) followed by the comma-joined bracketed
annotation `[MISSING: f1, f2]`, trimmed; and every required field absent from
the filtered-and-transformed output — including one dropped because it is not
in `keepFields` — appears in that note, which contains the substring
`[MISSING:`. -/
theorem c8_missing_fields_note (entry : Entry) (keepOrder : List String) (opts : CleanOptions)
    (harticle : entry.type = "article") :
    (articleMissing entry keepOrder opts ≠ [] →
      objGet (normalizeEntry entry keepOrder opts).fields "note" =
        some (jsTrim ((match objGet (articleTransformed entry keepOrder opts) "note" with
          | some n => if n ≠ "" then n ++ " " else ""
          | none => "") ++ "[MISSING: " ++
          jsJoin ", " (articleMissing entry keepOrder opts) ++ "]"))) ∧
    ∀ f ∈ REQUIRED_FIELDS, objTruthy (articleTransformed entry keepOrder opts) f = false →
      ∃ note : String, objGet (normalizeEntry entry keepOrder opts).fields "note" = some note ∧
        "[MISSING:".data <:+: note.data ∧ f.data <:+: note.data := by
  have hfields := normalizeEntry_article_fields keepOrder opts harticle
  have hmain : articleMissing entry keepOrder opts ≠ [] →
      objGet (normalizeEntry entry keepOrder opts).fields "note" =
        some (jsTrim ((match objGet (articleTransformed entry keepOrder opts) "note" with
          | some n => if n ≠ "" then n ++ " " else ""
          | none => "") ++ "[MISSING: " ++
          jsJoin ", " (articleMissing entry keepOrder opts) ++ "]")) := by
    intro hmiss
    rw [hfields]
    unfold articleWithNote
    rw [if_pos hmiss]
    exact objGet_objSet_self _ _ _
  refine ⟨hmain, ?_⟩
  intro f hf hfalsy
  have hfmem : f ∈ articleMissing entry keepOrder opts := by
    unfold articleMissing
    exact List.mem_filter.mpr ⟨hf, by rw [hfalsy]; rfl⟩
  have hmiss : articleMissing entry keepOrder opts ≠ [] := List.ne_nil_of_mem hfmem
  refine ⟨_, hmain hmiss, ?_, ?_⟩
  · apply infix_trimChars (by decide)
    have step1 : "[MISSING:".data <:+: "[MISSING: ".data := by decide
    have step2 : "[MISSING: ".data <:+:
        ((match objGet (articleTransformed entry keepOrder opts) "note" with
          | some n => if n ≠ "" then n ++ " " else ""
          | none => "") ++ "[MISSING: " ++
          jsJoin ", " (articleMissing entry keepOrder opts) ++ "]").data := by
      rw [String.data_append, String.data_append, String.data_append, List.append_assoc]
      exact List.infix_append _ _ _
    exact step1.trans step2
  · apply infix_trimChars (by
      have hws : ∀ g ∈ REQUIRED_FIELDS, ∀ c ∈ g.data, jsIsWs c = false := by decide
      exact hws f hf)
    have step1 : f.data <:+: (jsJoin ", " (articleMissing entry keepOrder opts)).data :=
      mem_infix_jsJoin ", " f _ hfmem
    have step2 : (jsJoin ", " (articleMissing entry keepOrder opts)).data <:+:
        ((match objGet (articleTransformed entry keepOrder opts) "note" with
          | some n => if n ≠ "" then n ++ " " else ""
          | none => "") ++ "[MISSING: " ++
          jsJoin ", " (articleMissing entry keepOrder opts) ++ "]").data := by
      rw [String.data_append, String.data_append]
      exact List.infix_append _ _ _
    exact step1.trans step2


/-- Witness for C8: the concrete entry missing `volume` gets a note containing
`[MISSING:` and `volume`. -/
theorem c8_missing_fields_note_witness :
    ("volume" : String) ∈ REQUIRED_FIELDS ∧
    ∃ note : String, objGet (normalizeEntry c8Entry REQUIRED_FIELDS c1Opts).fields "note" =
        some note ∧ "[MISSING:".data <:+: note.data ∧ "volume".data <:+: note.data :=
  ⟨by decide, (c8_missing_fields_note c8Entry REQUIRED_FIELDS c1Opts (by decide)).2 "volume"
    (by decide) (by decide)⟩


theorem ws_not_dash {c : Char} (h : jsIsWs c = true) : isDashChar c = false := by
  rcases ws_cases h with rfl | rfl | rfl | rfl | rfl | rfl | rfl <;> decide


theorem digit_not_ws {c : Char} (h : c.isDigit = true) : jsIsWs c = false := by
  cases hw : jsIsWs c
  · rfl
  · rcases ws_cases hw with rfl | rfl | rfl | rfl | rfl | rfl | rfl <;> exact absurd h (by decide)


theorem digit_not_dash {c : Char} (h : c.isDigit = true) : isDashChar c = false := by
  cases hd : isDashChar c
  · rfl
  · unfold isDashChar at hd
    simp only [Bool.or_eq_true, decide_eq_true_eq] at hd
    rcases hd with (rfl | rfl) | rfl <;> exact absurd h (by decide)


theorem trimChars_eq_self {l : List Char}
    (h1 : ∀ c, l.head? = some c → jsIsWs c = false)
    (h2 : ∀ c, l.getLast? = some c → jsIsWs c = false) : trimChars l = l := by
  unfold trimChars
  have e1 : l.dropWhile jsIsWs = l := by
    cases l with
    | nil => rfl
    | cons a t => exact List.dropWhile_cons_of_neg (by simp [h1 a rfl])
  rw [e1]
  have e2 : l.reverse.dropWhile jsIsWs = l.reverse := by
    cases hr : l.reverse with
    | nil => rfl
    | cons a t =>
        have hla : l.getLast? = some a := by
          rw [← List.head?_reverse, hr, List.head?_cons]
        exact List.dropWhile_cons_of_neg (by simp [h2 a hla])
  rw [e2, List.reverse_reverse]


theorem hasDashDash_false_of_count {l : List Char} (h : l.count '-' ≤ 1) :
    hasDashDash l = false := by
  induction l with
  | nil => rfl
  | cons a t ih =>
      cases t with
      | nil => rfl
      | cons b r =>
          rw [hasDashDash]
          have hsub : (b :: r).count '-' ≤ 1 := by
            simp only [List.count_cons] at h ⊢
            omega
          rw [ih hsub, Bool.or_false]
          by_cases hab : a = '-' ∧ b = '-'
          · exfalso
            obtain ⟨rfl, rfl⟩ := hab
            simp only [List.count_cons, beq_self_eq_true, if_true] at h
            omega
          · by_cases ha : a = '-' <;> by_cases hb : b = '-' <;>
              simp [ha, hb] at hab ⊢


theorem splitDashAux_no_dash (fuel : Nat) : ∀ (cs current : List Char),
    cs.length < fuel → (∀ c ∈ cs, isDashChar c = false) →
    splitDashAux fuel cs current = [current ++ cs] := by
  induction fuel with
  | zero => intro cs current h _; exact absurd h (Nat.not_lt_zero _)
  | succ f ih =>
      intro cs current h hnd
      cases cs with
      | nil => simp [splitDashAux]
      | cons c rest =>
          simp only [splitDashAux]
          rw [if_neg (by simp [hnd c (List.mem_cons_self c rest)])]
          rw [ih rest (current ++ [c])
            (by simp only [List.length_cons] at h; omega)
            (fun d hd => hnd d (List.mem_cons_of_mem c hd))]
          simp


theorem splitDashAux_through (x : List Char) : ∀ (fuel : Nat) (y current : List Char),
    x.length + y.length + 1 < fuel → (∀ c ∈ x, isDashChar c = false) →
    splitDashAux fuel (x ++ '-' :: y) current =
      dropTrailingWs (current ++ x) ::
        splitDashAux (fuel - x.length - 1) (y.dropWhile jsIsWs) [] := by
  induction x with
  | nil =>
      intro fuel y current hlen _
      cases fuel with
      | zero => exact absurd hlen (Nat.not_lt_zero _)
      | succ f =>
          simp only [List.nil_append, splitDashAux]
          rw [if_pos (by decide)]
          simp
  | cons a x' ih =>
      intro fuel y current hlen hnd
      cases fuel with
      | zero => exact absurd hlen (Nat.not_lt_zero _)
      | succ f =>
          have ha : isDashChar a = false := hnd a (List.mem_cons_self a x')
          simp only [List.cons_append, splitDashAux, List.append_eq]
          rw [if_neg (by simp [ha])]
          rw [ih f y (current ++ [a])
            (by simp only [List.length_cons] at hlen; omega)
            (fun d hd => hnd d (List.mem_cons_of_mem a hd))]
          have harith : f - x'.length - 1 = f + 1 - (a :: x').length - 1 := by
            simp only [List.length_cons]; omega
          rw [harith, List.append_assoc, List.singleton_append]


theorem dropTrailingWs_digits_ws (d w : List Char)
    (hd : ∀ c ∈ d, c.isDigit = true) (hw : ∀ c ∈ w, jsIsWs c = true) :
    dropTrailingWs (d ++ w) = d := by
  unfold dropTrailingWs
  rw [List.reverse_append,
    dropWhile_append_of_all _ _ (fun c hc => hw c (List.mem_reverse.mp hc))]
  cases hr : d.reverse with
  | nil =>
      rw [List.reverse_eq_nil_iff.mp hr]
      rfl
  | cons a t =>
      have ha : a ∈ d := List.mem_reverse.mp
        (show a ∈ d.reverse by rw [hr]; exact List.mem_cons_self a t)
      rw [List.dropWhile_cons_of_neg (by simp [digit_not_ws (hd a ha)]), ← hr,
        List.reverse_reverse]


theorem isDigits_of_all (d : List Char) (hne : d ≠ []) (hall : ∀ c ∈ d, c.isDigit = true) :
    isDigits d = true := by
  unfold isDigits
  cases d with
  | nil => exact absurd rfl hne
  | cons a t =>
      simp [List.all_eq_true]
      exact ⟨hall a (List.mem_cons_self a t), fun x hx => hall x (List.mem_cons_of_mem a hx)⟩


/-- C6: for every pages value of the shape digits–whitespace–hyphen–whitespace–digits
(`\d+\s*-\s*\d+`), `normalizePages` returns the first digit run, `--`, then the
second digit run, both runs unchanged. -/
theorem c6_pages_range (d1 w1 w2 d2 : List Char)
    (hd1 : d1 ≠ []) (hd1d : ∀ c ∈ d1, c.isDigit = true)
    (hd2 : d2 ≠ []) (hd2d : ∀ c ∈ d2, c.isDigit = true)
    (hw1 : ∀ c ∈ w1, jsIsWs c = true) (hw2 : ∀ c ∈ w2, jsIsWs c = true) :
    normalizePages ⟨d1 ++ w1 ++ '-' :: (w2 ++ d2)⟩ = ⟨d1 ++ '-' :: '-' :: d2⟩ := by
  obtain ⟨a1, t1, rfl⟩ := List.exists_cons_of_ne_nil hd1
  obtain ⟨a2, t2, rfl⟩ := List.exists_cons_of_ne_nil hd2
  set E : List Char := (a1 :: t1) ++ w1 ++ '-' :: (w2 ++ (a2 :: t2)) with hE
  have hdata : (⟨E⟩ : String).data = E := rfl
  have hEne : E ≠ [] := by rw [hE]; simp
  have hne : (⟨E⟩ : String) ≠ "" := by
    intro h
    exact hEne (by simpa [String.ext_iff] using h)
  have htrim : trimChars E = E := by
    apply trimChars_eq_self
    · intro c hc
      rw [hE, List.cons_append, List.cons_append, List.head?_cons] at hc
      cases hc
      exact digit_not_ws (hd1d a1 (List.mem_cons_self a1 t1))
    · intro c hc
      have hlast : E.getLast? = (a2 :: t2).getLast? := by
        rw [hE, List.getLast?_append_of_ne_nil _ (by simp), ← List.cons_append,
          List.getLast?_append_of_ne_nil _ (by simp)]
      rw [hlast] at hc
      have hcmem : c ∈ a2 :: t2 := List.mem_of_mem_getLast? (Option.mem_def.mpr hc)
      exact digit_not_ws (hd2d c hcmem)
  have hnodash1 : ∀ c ∈ (a1 :: t1) ++ w1, isDashChar c = false := by
    intro c hc
    rcases List.mem_append.mp hc with h | h
    · exact digit_not_dash (hd1d c h)
    · exact ws_not_dash (hw1 c h)
  have hdd : hasDashDash E = false := by
    apply hasDashDash_false_of_count
    have c1 : List.count '-' (a1 :: t1) = 0 := List.count_eq_zero.mpr
      (fun hm => absurd (hd1d '-' hm) (by decide))
    have c2 : List.count '-' w1 = 0 := List.count_eq_zero.mpr
      (fun hm => absurd (hw1 '-' hm) (by decide))
    have c3 : List.count '-' w2 = 0 := List.count_eq_zero.mpr
      (fun hm => absurd (hw2 '-' hm) (by decide))
    have c4 : List.count '-' (a2 :: t2) = 0 := List.count_eq_zero.mpr
      (fun hm => absurd (hd2d '-' hm) (by decide))
    rw [hE]
    simp only [List.count_append, List.count_cons, beq_self_eq_true, eq_self_iff_true,
      if_true] at c1 c2 c3 c4 ⊢
    omega
  have hdropw2 : (w2 ++ (a2 :: t2)).dropWhile jsIsWs = a2 :: t2 := by
    rw [dropWhile_append_of_all _ _ hw2]
    exact List.dropWhile_cons_of_neg (by simp [digit_not_ws (hd2d a2 (List.mem_cons_self a2 t2))])
  have hsplit : splitDashAux (E.length + 1) E [] = [a1 :: t1, a2 :: t2] := by
    have hshape : E = ((a1 :: t1) ++ w1) ++ '-' :: (w2 ++ (a2 :: t2)) := by
      rw [hE, List.append_assoc]
    rw [hshape, splitDashAux_through _ _ _ _
      (by simp [List.length_append, List.length_cons]; omega) hnodash1]
    rw [hdropw2, List.nil_append,
      dropTrailingWs_digits_ws _ _ hd1d hw1,
      splitDashAux_no_dash _ _ _
        (by simp [List.length_append, List.length_cons]; omega)
        (fun c hc => digit_not_dash (hd2d c hc)),
      List.nil_append]
  have hdig1 : isDigits (a1 :: t1) = true := isDigits_of_all _ (by simp) hd1d
  have hdig2 : isDigits (a2 :: t2) = true := isDigits_of_all _ (by simp) hd2d
  unfold normalizePages
  rw [if_neg hne]
  show (if hasDashDash (trimChars E) then _ else _) = _
  rw [htrim, hdd]
  show (match splitDashAux (E.length + 1) E [] with
    | [p0, p1] =>
        if isDigits p0 && isDigits p1 then (⟨p0 ++ '-' :: '-' :: p1⟩ : String)
        else ⟨collapseDashAux (E.length + 1) E []⟩
    | _ => ⟨collapseDashAux (E.length + 1) E []⟩) = _
  rw [hsplit]
  show (if isDigits (a1 :: t1) && isDigits (a2 :: t2) then
      (⟨(a1 :: t1) ++ '-' :: '-' :: (a2 :: t2)⟩ : String)
    else ⟨collapseDashAux (E.length + 1) E []⟩) = _
  rw [hdig1, hdig2]
  rfl


theorem c6_pages_range_witness :
    normalizePages ⟨['1', '0', '0'] ++ [' '] ++ '-' :: ([' '] ++ ['1', '1', '0'])⟩ =
      ⟨['1', '0', '0'] ++ '-' :: '-' :: ['1', '1', '0']⟩ :=
  c6_pages_range ['1', '0', '0'] [' '] [' '] ['1', '1', '0']
    (by decide) (by decide) (by decide) (by decide) (by decide) (by decide)


theorem listCmpNat_eq_iff : ∀ as bs : List Nat, listCmpNat as bs = .eq ↔ as = bs := by
  intro as
  induction as with
  | nil => intro bs; cases bs <;> simp [listCmpNat]
  | cons a as ih =>
      intro bs
      cases bs with
      | nil => simp [listCmpNat]
      | cons b bs =>
          rcases Nat.lt_trichotomy a b with h | h | h
          · have hc : compare a b = .lt := Nat.compare_eq_lt.mpr h
            simp only [listCmpNat, hc]
            constructor
            · intro he; exact absurd he (by decide)
            · intro he
              obtain ⟨rfl, -⟩ := List.cons.injEq .. ▸ he
              exact absurd h (lt_irrefl a)
          · subst h
            have hc : compare a a = .eq := Nat.compare_eq_eq.mpr rfl
            simp [listCmpNat, hc, ih]
          · have hc : compare a b = .gt := Nat.compare_eq_gt.mpr h
            simp only [listCmpNat, hc]
            constructor
            · intro he; exact absurd he (by decide)
            · intro he
              obtain ⟨rfl, -⟩ := List.cons.injEq .. ▸ he
              exact absurd h (lt_irrefl a)


theorem listCmpNat_swap : ∀ as bs : List Nat, listCmpNat bs as = (listCmpNat as bs).swap := by
  intro as
  induction as with
  | nil => intro bs; cases bs <;> rfl
  | cons a as ih =>
      intro bs
      cases bs with
      | nil => rfl
      | cons b bs =>
          simp only [listCmpNat]
          rw [← Nat.compare_swap a b]
          cases hc : compare a b <;> simp [Ordering.swap, ih]


theorem listCmpNat_lt_trans : ∀ as bs cs : List Nat, listCmpNat as bs = .lt →
    listCmpNat bs cs = .lt → listCmpNat as cs = .lt := by
  intro as
  induction as with
  | nil =>
      intro bs cs h1 h2
      cases cs with
      | cons c cs => rfl
      | nil =>
          cases bs with
          | nil => exact absurd h1 (by simp [listCmpNat])
          | cons b bs => exact absurd h2 (by simp [listCmpNat])
  | cons a as ih =>
      intro bs cs h1 h2
      cases bs with
      | nil => exact absurd h1 (by simp [listCmpNat])
      | cons b bs =>
          cases cs with
          | nil => exact absurd h2 (by simp [listCmpNat])
          | cons c cs =>
              simp only [listCmpNat] at h1 h2 ⊢
              rcases hab : compare a b with _ | _ | _ <;> rw [hab] at h1 <;>
                rcases hbc : compare b c with _ | _ | _ <;> rw [hbc] at h2
              · have h3 : a < b := Nat.compare_eq_lt.mp hab
                have h4 : b < c := Nat.compare_eq_lt.mp hbc
                rw [Nat.compare_eq_lt.mpr (h3.trans h4)]
              · have h3 : a < b := Nat.compare_eq_lt.mp hab
                have h4 : b = c := Nat.compare_eq_eq.mp hbc
                rw [Nat.compare_eq_lt.mpr (h4 ▸ h3)]
              · exact Ordering.noConfusion h2
              · have h3 : a = b := Nat.compare_eq_eq.mp hab
                have h4 : b < c := Nat.compare_eq_lt.mp hbc
                rw [Nat.compare_eq_lt.mpr (h3 ▸ h4)]
              · have h3 : a = b := Nat.compare_eq_eq.mp hab
                have h4 : b = c := Nat.compare_eq_eq.mp hbc
                rw [Nat.compare_eq_eq.mpr (h3.trans h4)]
                exact ih bs cs h1 h2
              · exact Ordering.noConfusion h2
              · exact Ordering.noConfusion h1
              · exact Ordering.noConfusion h1
              · exact Ordering.noConfusion h1


theorem localeCmp_eq_iff (a b : String) : localeCmp a b = .eq ↔
    (a.data.map primaryWeight = b.data.map primaryWeight ∧
      a.data.map tertiaryWeight = b.data.map tertiaryWeight) := by
  unfold localeCmp
  cases hp : listCmpNat (a.data.map primaryWeight) (b.data.map primaryWeight) with
  | eq =>
      have hpe := (listCmpNat_eq_iff _ _).mp hp
      simp [listCmpNat_eq_iff, hpe]
  | lt =>
      constructor
      · intro he; exact Ordering.noConfusion he
      · intro ⟨h1, _⟩
        rw [(listCmpNat_eq_iff _ _).mpr h1] at hp
        exact Ordering.noConfusion hp
  | gt =>
      constructor
      · intro he; exact Ordering.noConfusion he
      · intro ⟨h1, _⟩
        rw [(listCmpNat_eq_iff _ _).mpr h1] at hp
        exact Ordering.noConfusion hp


theorem localeCmp_swap (a b : String) : localeCmp b a = (localeCmp a b).swap := by
  unfold localeCmp
  rw [listCmpNat_swap (a.data.map primaryWeight) (b.data.map primaryWeight),
    listCmpNat_swap (a.data.map tertiaryWeight) (b.data.map tertiaryWeight)]
  cases listCmpNat (a.data.map primaryWeight) (b.data.map primaryWeight) <;> rfl


theorem localeCmp_congr_left (a b x : String)
    (h1 : a.data.map primaryWeight = b.data.map primaryWeight)
    (h2 : a.data.map tertiaryWeight = b.data.map tertiaryWeight) :
    localeCmp a x = localeCmp b x := by
  unfold localeCmp
  rw [h1, h2]


theorem localeCmp_congr_right (a b x : String)
    (h1 : a.data.map primaryWeight = b.data.map primaryWeight)
    (h2 : a.data.map tertiaryWeight = b.data.map tertiaryWeight) :
    localeCmp x a = localeCmp x b := by
  unfold localeCmp
  rw [h1, h2]


theorem localeCmp_lt_trans (a b c : String) (h1 : localeCmp a b = .lt)
    (h2 : localeCmp b c = .lt) : localeCmp a c = .lt := by
  unfold localeCmp at h1 h2 ⊢
  cases hp1 : listCmpNat (a.data.map primaryWeight) (b.data.map primaryWeight) with
  | gt => rw [hp1] at h1; exact Ordering.noConfusion h1
  | lt =>
      rw [hp1] at h1
      cases hp2 : listCmpNat (b.data.map primaryWeight) (c.data.map primaryWeight) with
      | gt => rw [hp2] at h2; exact Ordering.noConfusion h2
      | lt => rw [listCmpNat_lt_trans _ _ _ hp1 hp2]
      | eq =>
          have hpe := (listCmpNat_eq_iff _ _).mp hp2
          rw [← hpe, hp1]
  | eq =>
      rw [hp1] at h1
      have hpe := (listCmpNat_eq_iff _ _).mp hp1
      cases hp2 : listCmpNat (b.data.map primaryWeight) (c.data.map primaryWeight) with
      | gt => rw [hp2] at h2; exact Ordering.noConfusion h2
      | lt => rw [hpe, hp2]
      | eq =>
          have hpe2 := (listCmpNat_eq_iff _ _).mp hp2
          rw [hpe, hp2]
          rw [hp2] at h2
          exact listCmpNat_lt_trans _ _ _ h1 h2


theorem entryLe_total (a b : NormalizedEntry) (h : entryLe a b = false) :
    entryLe b a = true := by
  unfold entryLe localeCompare at h ⊢
  cases hc : localeCmp a.id b.id <;> rw [hc] at h
  · exact absurd h (by decide)
  · exact absurd h (by decide)
  · rw [localeCmp_swap, hc]
    decide


theorem entryLe_trans (a b c : NormalizedEntry) (h1 : entryLe a b = true)
    (h2 : entryLe b c = true) : entryLe a c = true := by
  unfold entryLe localeCompare at h1 h2 ⊢
  cases hc1 : localeCmp a.id b.id <;> rw [hc1] at h1
  case gt => exact absurd h1 (by decide)
  case lt =>
      cases hc2 : localeCmp b.id c.id <;> rw [hc2] at h2
      case gt => exact absurd h2 (by decide)
      case lt => rw [localeCmp_lt_trans _ _ _ hc1 hc2]; decide
      case eq =>
          obtain ⟨he1, he2⟩ := (localeCmp_eq_iff _ _).mp hc2
          rw [localeCmp_congr_right _ _ _ he1.symm he2.symm, hc1]
          decide
  case eq =>
      obtain ⟨he1, he2⟩ := (localeCmp_eq_iff _ _).mp hc1
      rw [localeCmp_congr_left _ _ _ he1 he2]
      exact h2


theorem mem_orderedInsertLe (le : α → α → Bool) (x : α) :
    ∀ (l : List α) (z : α), z ∈ orderedInsertLe le x l → z = x ∨ z ∈ l := by
  intro l
  induction l with
  | nil =>
      intro z hz
      rw [orderedInsertLe] at hz
      exact Or.inl (List.mem_singleton.mp hz)
  | cons y l ih =>
      intro z hz
      rw [orderedInsertLe] at hz
      by_cases h : le x y = true
      · rw [if_pos h] at hz
        rcases List.mem_cons.mp hz with rfl | hz2
        · exact Or.inl rfl
        · exact Or.inr hz2
      · rw [if_neg h] at hz
        rcases List.mem_cons.mp hz with rfl | hz2
        · exact Or.inr (List.mem_cons_self _ _)
        · rcases ih z hz2 with rfl | hz3
          · exact Or.inl rfl
          · exact Or.inr (List.mem_cons_of_mem y hz3)


theorem pairwise_orderedInsertLe (le : α → α → Bool)
    (htot : ∀ a b, le a b = false → le b a = true)
    (htrans : ∀ a b c, le a b = true → le b c = true → le a c = true) (x : α) :
    ∀ l, List.Pairwise (fun a b => le a b = true) l →
      List.Pairwise (fun a b => le a b = true) (orderedInsertLe le x l) := by
  intro l
  induction l with
  | nil =>
      intro _
      rw [orderedInsertLe]
      exact List.pairwise_singleton _ x
  | cons y l ih =>
      intro hp
      rw [List.pairwise_cons] at hp
      obtain ⟨hy, hl⟩ := hp
      rw [orderedInsertLe]
      by_cases h : le x y = true
      · rw [if_pos h]
        refine List.Pairwise.cons ?_ (List.Pairwise.cons hy hl)
        intro z hz
        rcases List.mem_cons.mp hz with rfl | hz2
        · exact h
        · exact htrans x y z h (hy z hz2)
      · rw [if_neg h]
        refine List.Pairwise.cons ?_ (ih hl)
        intro z hz
        rcases mem_orderedInsertLe le x l z hz with rfl | hz2
        · exact htot _ _ (Bool.eq_false_iff.mpr h)
        · exact hy z hz2


theorem pairwise_insertionSortLe (le : α → α → Bool)
    (htot : ∀ a b, le a b = false → le b a = true)
    (htrans : ∀ a b c, le a b = true → le b c = true → le a c = true) :
    ∀ l : List α, List.Pairwise (fun a b => le a b = true) (insertionSortLe le l) := by
  intro l
  induction l with
  | nil => exact List.Pairwise.nil
  | cons x xs ih =>
      rw [insertionSortLe]
      exact pairwise_orderedInsertLe le htot htrans x _ ih


/-- C2: the combined output serializes the sorted normalized entries joined by
one blank line, and the sort is ascending in the comparator the code actually
uses, `a.id.localeCompare(b.id)` (every earlier entry compares `≤ 0` to every
later one); by `c2_codeunit_counterexample` that order is not the simple
code-unit order the claim states. -/
theorem c2_sorted_output (text : String) (opts : CleanOptions) :
    cleanBibtex text opts =
      jsJoin "\n\n" ((cleanSortedEntries text opts).map serializeEntry) ∧
    List.Pairwise (fun a b => entryLe a b = true) (cleanSortedEntries text opts) :=
  ⟨rfl, pairwise_insertionSortLe entryLe entryLe_total entryLe_trans _⟩


/-- C2 counterexample: on `@misc{B}  @misc{a}` the cleaned output orders id
`a` before id `B` (CLDR root collation of `localeCompare`), although in simple
code-unit order `a` (0x61) comes after `B` (0x42): the output is not sorted in
ascending code-unit order of id. -/
theorem c2_codeunit_counterexample :
    ((cleanSortedEntries c2Input c2Opts).map NormalizedEntry.id = ["a", "B"]) ∧
    codeUnitCmp ("a" : String).data ("B" : String).data = .gt := by
  constructor
  · decide
  · decide


theorem shouldCapitalize_small_false (word : List Char) (index : Nat) (text : List Char)
    (h0 : index ≠ 0) (c : Char) (hc : prevNonWsChar text index = some c)
    (hcp : c ∉ PUNCT_FORCE)
    (hsmall : (⟨word.map Char.toLower⟩ : String) ∈ SMALL_WORDS) :
    shouldCapitalize word index text = false := by
  unfold shouldCapitalize
  rw [if_neg h0, hc]
  show (if c ∈ PUNCT_FORCE then true
    else !(SMALL_WORDS.contains ⟨word.map Char.toLower⟩)) = false
  rw [if_neg hcp]
  have : SMALL_WORDS.contains ⟨word.map Char.toLower⟩ = true :=
    List.elem_eq_true_of_mem hsmall
  rw [this]
  rfl


theorem tcGo_contains_lower (text : List Char) :
    ∀ (fuel pos i : Nat) (w : List Char),
      (i, w) ∈ tcMatches text fuel pos →
      shouldCapitalize w i text = false →
      ∃ x y, tcGo text fuel pos = x ++ w.map Char.toLower ++ y := by
  intro fuel
  induction fuel with
  | zero => intro pos i w hmem _; exact absurd hmem (by simp [tcMatches])
  | succ fuel ih =>
      intro pos i w hmem hcap
      rw [tcMatches] at hmem
      rw [tcGo]
      by_cases hpos : pos < text.length
      · rw [dif_pos hpos] at hmem ⊢
        by_cases hhead : ((text.get ⟨pos, hpos⟩).isAlpha && tcPrevOk text pos) = true
        · rw [if_pos hhead] at hmem ⊢
          cases hbt : backtrackLen text pos ((text.drop pos).takeWhile isWordBodyChar).length with
          | none =>
              rw [hbt] at hmem
              obtain ⟨x, y, hxy⟩ := ih (pos + 1) i w hmem hcap
              refine ⟨text.get ⟨pos, hpos⟩ :: x, y, ?_⟩
              show text.get ⟨pos, hpos⟩ :: tcGo text fuel (pos + 1) = _
              rw [hxy]
              rfl
          | some L =>
              rw [hbt] at hmem
              rcases List.mem_cons.mp hmem with heq | htail
              · injection heq with h1 h2
                rw [h1, h2] at hcap
                refine ⟨[], tcGo text fuel (pos + L), ?_⟩
                show (if shouldCapitalize ((text.drop pos).take L) pos text then
                    capitalizeWord ((text.drop pos).take L)
                  else ((text.drop pos).take L).map Char.toLower) ++
                    tcGo text fuel (pos + L) = _
                rw [hcap, ← h2]
                simp
              · obtain ⟨x, y, hxy⟩ := ih (pos + L) i w htail hcap
                refine ⟨(if shouldCapitalize ((text.drop pos).take L) pos text then
                    capitalizeWord ((text.drop pos).take L)
                  else ((text.drop pos).take L).map Char.toLower) ++ x, y, ?_⟩
                show (if shouldCapitalize ((text.drop pos).take L) pos text then
                    capitalizeWord ((text.drop pos).take L)
                  else ((text.drop pos).take L).map Char.toLower) ++
                    tcGo text fuel (pos + L) = _
                rw [hxy]
                simp [List.append_assoc]
        · rw [if_neg hhead] at hmem ⊢
          obtain ⟨x, y, hxy⟩ := ih (pos + 1) i w hmem hcap
          exact ⟨text.get ⟨pos, hpos⟩ :: x, y, by rw [hxy]; rfl⟩
      · rw [dif_neg hpos] at hmem
        exact absurd hmem (List.not_mem_nil _)


/-- C10: when title-casing a span, every matched word whose lowercase form is a
small word and which is neither at offset 0 nor preceded (ignoring whitespace)
by one of `: . ; ! ?` appears entirely lowercased in the output of
`titlecaseSegment`. -/
theorem c10_small_word_lowercased (text w : List Char) (i : Nat)
    (hmem : (i, w) ∈ tcMatches text (text.length + 1) 0)
    (hsmall : (⟨w.map Char.toLower⟩ : String) ∈ SMALL_WORDS)
    (h0 : i ≠ 0) (c : Char) (hc : prevNonWsChar text i = some c)
    (hcp : c ∉ PUNCT_FORCE) :
    ∃ x y, titlecaseSegment text = x ++ w.map Char.toLower ++ y :=
  tcGo_contains_lower text (text.length + 1) 0 i w hmem
    (shouldCapitalize_small_false w i text h0 c hc hcp hsmall)


theorem c10_small_word_lowercased_witness :
    ∃ x y, titlecaseSegment ("x THE y" : String).data =
      x ++ (("THE" : String).data).map Char.toLower ++ y :=
  c10_small_word_lowercased ("x THE y" : String).data ("THE" : String).data 2
    (by decide) (by decide) (by decide) 'x' (by decide) (by decide)


theorem tokens_check1 : ∀ u ∈ sortedTokens PROTECT_TITLE_TOKENS,
    ∀ t ∈ sortedTokens PROTECT_TITLE_TOKENS, t ≠ u →
      innerMatchFreeB t u = true ∧ overlapFreeB t u = true := by decide


theorem tokens_check2 : ∀ t ∈ sortedTokens PROTECT_TITLE_TOKENS,
    t ≠ [] ∧ braceFree t = true ∧ isWordOpt t.head? = true := by decide


theorem tokens_check3 : ∀ t ∈ PROTECT_TITLE_TOKENS,
    t.data ∈ sortedTokens PROTECT_TITLE_TOKENS := by decide


theorem some_or (x : Char) (o : Option Char) : (Option.some x).or o = some x := rfl


theorem or_none_char (o : Option Char) : o.or none = o := by cases o <;> rfl


theorem braceFree_mem {s : List Char} (h : braceFree s = true) {c : Char} (hc : c ∈ s) :
    c ≠ '{' ∧ c ≠ '}' := by
  unfold braceFree at h
  rw [List.all_eq_true] at h
  have := h c hc
  simp only [Bool.and_eq_true, decide_eq_true_eq] at this
  exact this


theorem braceFree_append {x y : List Char} (hx : braceFree x = true) (hy : braceFree y = true) :
    braceFree (x ++ y) = true := by
  unfold braceFree at hx hy ⊢
  rw [List.all_eq_true] at hx hy ⊢
  intro c hc
  rcases List.mem_append.mp hc with h | h
  · exact hx c h
  · exact hy c h


theorem lookOk_append_left {z w : List Char} (h : lookOkB (z ++ w) = true) :
    lookOkB z = true := by
  cases z with
  | nil => rfl
  | cons c r => exact h


theorem lookOk_append {z w : List Char} (h1 : lookOkB z = true) (h2 : lookOkB w = true) :
    lookOkB (z ++ w) = true := by
  cases z with
  | nil => exact h2
  | cons c r => exact h1


theorem getLast?_cons_or (c : Char) (a : List Char) :
    (c :: a).getLast? = (a.getLast?).or (some c) := by
  cases ha : a.getLast? with
  | none =>
      rw [List.getLast?_eq_none_iff.mp ha]
      rfl
  | some x =>
      have hane : a ≠ [] := by
        intro h
        rw [h] at ha
        exact Option.noConfusion ha
      rw [show c :: a = [c] ++ a from rfl, List.getLast?_append_of_ne_nil _ hane, ha]
      rfl


theorem getLast?_wrap (tok : List Char) :
    ('{' :: (tok ++ ['}'])).getLast? = some '}' := by
  rw [show '{' :: (tok ++ ['}']) = ('{' :: tok) ++ ['}'] from by rw [List.cons_append],
    List.getLast?_append_of_ne_nil _ (by simp)]
  rfl


theorem prevOk_or_left {o p : Option Char} (h : prevOkB (o.or p) = true) :
    prevOkB o = true := by
  cases o with
  | none => rfl
  | some x => exact h


theorem innerFree_elim {tok w x z : List Char} (hfree : innerMatchFreeB tok w = true)
    (hsplit : w = x ++ tok ++ z) (hprev : prevOkB (('{' :: x).getLast?) = true)
    (hlook : lookOkB (z ++ ['}']) = true) : False := by
  unfold innerMatchFreeB at hfree
  rw [List.all_eq_true] at hfree
  have hk : x.length ∈ List.range (w.length + 1) := by
    rw [List.mem_range, hsplit]
    simp [List.length_append]
    omega
  have hmain := hfree _ hk
  have e1 : w.drop x.length = tok ++ z := by
    rw [hsplit, List.append_assoc]
    exact List.drop_left _ _
  have e2 : (w.drop x.length).take tok.length = tok := by
    rw [e1]
    exact List.take_left _ _
  have e3 : w.take x.length = x := by
    rw [hsplit, List.append_assoc]
    exact List.take_left _ _
  have e4 : w.drop (x.length + tok.length) = z := by
    rw [hsplit, show x.length + tok.length = (x ++ tok).length from (List.length_append _ _).symm]
    exact List.drop_left _ _
  rw [e2, e3, e4] at hmain
  simp [hprev, hlook] at hmain


theorem overlapFree_elim1 {t u : List Char} (hfree : overlapFreeB t u = true) (d : Nat)
    (hd : d < u.length)
    (h1 : (u.drop d).take t.length = t.take (u.length - d))
    (h2 : prevOkB (u.take d).getLast? = true)
    (h3 : lookOkB (u.drop (d + t.length)) = true)
    (h4 : lookOkB (t.drop (u.length - d)) = true) : False := by
  unfold overlapFreeB at hfree
  rw [Bool.and_eq_true] at hfree
  have := (List.all_eq_true.mp hfree.1) d (List.mem_range.mpr hd)
  simp [h1, h2, h3, h4] at this


theorem overlapFree_elim2 {t u : List Char} (hfree : overlapFreeB t u = true) (e : Nat)
    (he : e < t.length)
    (h1 : (t.drop e).take u.length = u.take (t.length - e))
    (h2 : prevOkB (t.take e).getLast? = true)
    (h3 : lookOkB (t.drop (e + u.length)) = true)
    (h4 : lookOkB (u.drop (t.length - e)) = true) : False := by
  unfold overlapFreeB at hfree
  rw [Bool.and_eq_true] at hfree
  have := (List.all_eq_true.mp hfree.2) e (List.mem_range.mpr he)
  simp [h1, h2, h3, h4] at this


theorem prefix_shape {tok X Y : List Char} (hbf : braceFree tok = true)
    (hpre : tok <+: (X ++ '}' :: Y)) : ∃ z, X = tok ++ z := by
  obtain ⟨r, hr⟩ := hpre
  rcases le_or_lt tok.length X.length with hle | hlt
  · refine ⟨X.drop tok.length, ?_⟩
    have h1 : (tok ++ r).take tok.length = tok := List.take_left _ _
    rw [hr, List.take_append_of_le_length hle] at h1
    conv_lhs => rw [← List.take_append_drop tok.length X]
    rw [h1]
  · exfalso
    have h1 : (tok ++ r).get? X.length = tok.get? X.length := List.get?_append hlt
    have h2 : (X ++ '}' :: Y).get? X.length = some '}' := by
      rw [List.get?_append_right (le_refl _)]
      simp
    rw [hr, h2] at h1
    exact absurd rfl (braceFree_mem hbf (List.get?_mem h1.symm)).2


theorem scan_inside (tok w : List Char) (hbf : braceFree tok = true)
    (hfree : innerMatchFreeB tok w = true) :
    ∀ (b a y : List Char) (fuel : Nat), w = a ++ b → b.length + y.length + 1 < fuel →
      replaceTokAux tok fuel (('{' :: a).getLast?) (b ++ '}' :: y) =
        b ++ '}' :: replaceTokAux tok (fuel - b.length - 1) (some '}') y := by
  intro b
  induction b with
  | nil =>
      intro a y fuel hw hfuel
      cases fuel with
      | zero => omega
      | succ f =>
          simp only [List.nil_append, List.length_nil]
          rw [replaceTokAux]
          rw [if_neg]
          · simp
          · rintro ⟨h1, h2, h3, h4⟩
            obtain ⟨t0, ts, rfl⟩ := List.exists_cons_of_ne_nil h1
            obtain ⟨r, hr⟩ := List.isPrefixOf_iff_prefix.mp h2
            rw [List.cons_append] at hr
            have ht0 : t0 = '}' := (List.cons.injEq _ _ _ _ ▸ hr).1
            exact absurd ht0 (braceFree_mem hbf (List.mem_cons_self t0 ts)).2
  | cons c b' ih =>
      intro a y fuel hw hfuel
      cases fuel with
      | zero => omega
      | succ f =>
          simp only [List.cons_append]
          rw [replaceTokAux]
          rw [if_neg]
          · have hsc : (some c : Option Char) = ('{' :: (a ++ [c])).getLast? := by
              rw [show '{' :: (a ++ [c]) = ('{' :: a) ++ [c] from by rw [List.cons_append],
                List.getLast?_append_of_ne_nil _ (by simp)]
              rfl
            rw [hsc, ih (a ++ [c]) y f
              (by rw [hw, List.append_assoc, List.singleton_append])
              (by simp only [List.length_cons] at hfuel; omega)]
            have harith : f - b'.length - 1 = f + 1 - (c :: b').length - 1 := by
              simp only [List.length_cons]; omega
            rw [harith]
          · rintro ⟨h1, h2, h3, h4⟩
            obtain ⟨z, hz⟩ := prefix_shape (X := c :: b') (Y := y) hbf
              (by rw [List.cons_append]; exact List.isPrefixOf_iff_prefix.mp h2)
            apply innerFree_elim hfree (x := a) (z := z)
            · rw [hw, hz, ← List.append_assoc]
            · exact h3
            · have hdrop : (c :: (b' ++ '}' :: y)).drop tok.length = z ++ '}' :: y := by
                rw [show c :: (b' ++ '}' :: y) = (c :: b') ++ '}' :: y from by
                  rw [List.cons_append], hz, List.append_assoc]
                exact List.drop_left _ _
              rw [hdrop] at h4
              exact lookOk_append (lookOk_append_left h4) (by decide)


theorem infix_append_left (Y : List Char) {l X : List Char} (h : l <:+: X) : l <:+: Y ++ X := by
  obtain ⟨s, t, ht⟩ := h
  exact ⟨Y ++ s, t, by rw [← ht]; simp [List.append_assoc]⟩


theorem infix_cons_lift (c : Char) {l X : List Char} (h : l <:+: X) : l <:+: c :: X := by
  obtain ⟨s, t, ht⟩ := h
  exact ⟨c :: s, t, by rw [← ht]; rfl⟩


theorem lookOk_scan (tok : List Char) (fuel : Nat) (prev : Option Char) (y : List Char)
    (h : lookOkB y = true) : lookOkB (replaceTokAux tok fuel prev y) = true := by
  cases y with
  | nil => cases fuel <;> rfl
  | cons c r =>
      cases fuel with
      | zero => exact h
      | succ f =>
          rw [replaceTokAux]
          by_cases hm : tok ≠ [] ∧ tok.isPrefixOf (c :: r) ∧ prevOkB prev = true ∧
              lookOkB ((c :: r).drop tok.length) = true
          · rw [if_pos hm]
            show (!isWordChar '{') = true
            decide
          · rw [if_neg hm]
            exact h


theorem scan_creates (tok : List Char) (htok : tok ≠ []) :
    ∀ (fuel : Nat) (s : List Char) (prev : Option Char) (a b : List Char),
      s.length < fuel → s = a ++ tok ++ b →
      prevOkB ((a.getLast?).or prev) = true → lookOkB b = true →
      List.IsInfix ('{' :: (tok ++ ['}'])) (replaceTokAux tok fuel prev s) := by
  intro fuel
  induction fuel with
  | zero => intro s prev a b hlen _ _ _; omega
  | succ f ih =>
      intro s prev a b hlen hsplit hprev hlook
      cases s with
      | nil =>
          exfalso
          have h := hsplit.symm
          simp only [List.append_eq_nil] at h
          exact htok h.1.2
      | cons c rest =>
          rw [replaceTokAux]
          by_cases hm : tok ≠ [] ∧ tok.isPrefixOf (c :: rest) ∧ prevOkB prev = true ∧
              lookOkB ((c :: rest).drop tok.length) = true
          · rw [if_pos hm]
            exact ⟨[], replaceTokAux tok f tok.getLast? ((c :: rest).drop tok.length),
              by simp⟩
          · rw [if_neg hm]
            cases a with
            | nil =>
                exfalso
                apply hm
                rw [List.nil_append] at hsplit
                refine ⟨htok, List.isPrefixOf_iff_prefix.mpr ⟨b, hsplit.symm⟩, hprev, ?_⟩
                have hd : (c :: rest).drop tok.length = b := by
                  rw [hsplit]
                  exact List.drop_left _ _
                rw [hd]
                exact hlook
            | cons a0 a' =>
                have hsplit' : c :: rest = a0 :: (a' ++ tok ++ b) := by
                  rw [hsplit]
                  rfl
                have hc : c = a0 := (List.cons.injEq _ _ _ _ ▸ hsplit').1
                have hrest : rest = a' ++ tok ++ b := (List.cons.injEq _ _ _ _ ▸ hsplit').2
                rw [getLast?_cons_or, Option.or_assoc, some_or] at hprev
                have hrec := ih rest (some a0) a' b
                  (by simp only [List.length_cons] at hlen; omega)
                  hrest hprev hlook
                rw [hc]
                exact infix_cons_lift a0 hrec


theorem scan_mid (tok t : List Char) (hover : overlapFreeB t tok = true) :
    ∀ (b2 a2 y : List Char) (fuel : Nat), t = a2 ++ b2 → a2 ≠ [] → lookOkB y = true →
      b2.length + y.length < fuel →
      ∃ R, replaceTokAux tok fuel (a2.getLast?) (b2 ++ y) = b2 ++ R ∧ lookOkB R = true := by
  intro b2
  induction b2 with
  | nil =>
      intro a2 y fuel ht ha2 hy hfuel
      exact ⟨replaceTokAux tok fuel (a2.getLast?) y, by simp, lookOk_scan tok fuel _ y hy⟩
  | cons c2 b2' ih =>
      intro a2 y fuel ht ha2 hy hfuel
      cases fuel with
      | zero => omega
      | succ f =>
          simp only [List.cons_append]
          rw [replaceTokAux]
          rw [if_neg]
          · obtain ⟨R, hR, hRlook⟩ := ih (a2 ++ [c2]) y f
              (by rw [ht, List.append_assoc, List.singleton_append])
              (by simp)
              hy (by simp only [List.length_cons] at hfuel; omega)
            have hgl : (a2 ++ [c2]).getLast? = some c2 := by
              rw [List.getLast?_append_of_ne_nil _ (by simp)]
              rfl
            rw [hgl] at hR
            exact ⟨R, by rw [hR], hRlook⟩
          · rintro ⟨h1, h2, h3, h4⟩
            obtain ⟨r, hr⟩ := List.isPrefixOf_iff_prefix.mp h2
            rw [show c2 :: (b2' ++ y) = (c2 :: b2') ++ y from by rw [List.cons_append]] at hr
            have heb : a2.length < t.length := by
              rw [ht]
              simp [List.length_append]
            have e_take : t.take a2.length = a2 := by
              rw [ht]
              exact List.take_left _ _
            have e_drop : t.drop a2.length = c2 :: b2' := by
              rw [ht]
              exact List.drop_left _ _
            rcases List.append_eq_append_iff.mp hr with ⟨z, hz1, hz2⟩ | ⟨w', hw1, hw2⟩
            · apply overlapFree_elim2 hover a2.length heb
              · have hle : tok.length ≤ t.length - a2.length := by
                  rw [ht, hz1]
                  simp [List.length_append]
                rw [e_drop, hz1, List.take_left, List.take_of_length_le hle]
              · rw [e_take]
                exact h3
              · have hd1 : t.drop (a2.length + tok.length) = z := by
                  rw [ht, hz1, ← List.append_assoc,
                    show a2.length + tok.length = (a2 ++ tok).length from by
                      simp [List.length_append]]
                  exact List.drop_left _ _
                rw [hd1]
                have hd2 : (c2 :: (b2' ++ y)).drop tok.length = z ++ y := by
                  rw [show c2 :: (b2' ++ y) = (c2 :: b2') ++ y from by rw [List.cons_append],
                    hz1, List.append_assoc]
                  exact List.drop_left _ _
                rw [hd2] at h4
                exact lookOk_append_left h4
              · rw [List.drop_eq_nil_of_le
                  (by rw [ht, hz1]; simp [List.length_append])]
                rfl
            · apply overlapFree_elim2 hover a2.length heb
              · have hRHS : tok.take (t.length - a2.length) = c2 :: b2' := by
                  rw [hw1, show t.length - a2.length = (c2 :: b2').length from by
                    rw [ht]; simp [List.length_append]]
                  exact List.take_left _ _
                have hLHS : (t.drop a2.length).take tok.length = c2 :: b2' := by
                  rw [e_drop]
                  exact List.take_of_length_le (by rw [hw1]; simp [List.length_append])
                rw [hLHS, hRHS]
              · rw [e_take]
                exact h3
              · rw [List.drop_eq_nil_of_le
                  (by rw [ht, hw1]; simp [List.length_append])]
                rfl
              · have hd : tok.drop (t.length - a2.length) = w' := by
                  rw [hw1, show t.length - a2.length = (c2 :: b2').length from by
                    rw [ht]; simp [List.length_append]]
                  exact List.drop_left _ _
                rw [hd]
                rw [hw2] at hy
                exact lookOk_append_left hy


theorem scan_keeps_occ (tok t : List Char) (htok : tok ≠ []) (ht : t ≠ [])
    (hover : overlapFreeB t tok = true) (hthead : isWordOpt t.head? = true) :
    ∀ (fuel : Nat) (s : List Char) (prev : Option Char) (a b : List Char),
      s.length < fuel → s = a ++ t ++ b →
      prevOkB ((a.getLast?).or prev) = true → lookOkB b = true →
      ∃ a' b', replaceTokAux tok fuel prev s = a' ++ t ++ b' ∧
        prevOkB ((a'.getLast?).or prev) = true ∧ lookOkB b' = true := by
  intro fuel
  induction fuel with
  | zero => intro s prev a b hlen _ _ _; omega
  | succ f ih =>
      intro s prev a b hlen hsplit hprev hlook
      cases s with
      | nil =>
          exfalso
          have h := hsplit.symm
          simp only [List.append_eq_nil] at h
          exact ht h.1.2
      | cons c rest =>
          rw [replaceTokAux]
          by_cases hm : tok ≠ [] ∧ tok.isPrefixOf (c :: rest) = true ∧ prevOkB prev = true ∧
              lookOkB ((c :: rest).drop tok.length) = true
          · rw [if_pos hm]
            obtain ⟨-, h2, h3, h4⟩ := hm
            obtain ⟨r, hr⟩ := List.isPrefixOf_iff_prefix.mp h2
            have hlenr : tok.length + r.length = rest.length + 1 := by
              have := congrArg List.length hr
              simpa [List.length_append] using this
            have hdr : (c :: rest).drop tok.length = r := by
              rw [← hr]
              exact List.drop_left _ _
            have heq : a ++ (t ++ b) = tok ++ r := by
              rw [← List.append_assoc, ← hsplit, hr]
            rcases List.append_eq_append_iff.mp heq with ⟨a', ha1, ha2⟩ | ⟨c', hc1, hc2⟩
            · -- tok = a ++ a' : the t occurrence starts inside or at the end of the match
              by_cases ha'nil : a' = []
              · -- tok = a : t starts immediately after the match, contradicting the lookahead
                exfalso
                rw [ha'nil, List.append_nil] at ha1
                rw [ha'nil, List.nil_append] at ha2
                obtain ⟨t0, ts, rfl⟩ := List.exists_cons_of_ne_nil ht
                rw [hdr, ← ha2] at h4
                have hw : isWordChar t0 = true := by simpa [isWordOpt] using hthead
                rw [show lookOkB ((t0 :: ts) ++ b) = !isWordChar t0 from rfl, hw] at h4
                exact Bool.noConfusion h4
              · exfalso
                have hd : a.length < tok.length := by
                  rw [ha1]
                  simp only [List.length_append]
                  have := List.length_pos.mpr ha'nil
                  omega
                rcases List.append_eq_append_iff.mp ha2 with ⟨z, hz1, hz2⟩ | ⟨w', hw1', hw2'⟩
                · -- t lies inside the match region: tok = a ++ t ++ z
                  apply overlapFree_elim1 hover a.length hd
                  · have d1 : tok.drop a.length = t ++ z := by
                      rw [ha1, hz1]
                      exact List.drop_left _ _
                    have hle : t.length ≤ tok.length - a.length := by
                      rw [ha1, hz1]
                      simp [List.length_append]
                    rw [d1, List.take_left, List.take_of_length_le hle]
                  · have e1 : tok.take a.length = a := by
                      rw [ha1]
                      exact List.take_left _ _
                    rw [e1]
                    exact prevOk_or_left hprev
                  · have d2 : tok.drop (a.length + t.length) = z := by
                      rw [ha1, hz1, ← List.append_assoc,
                        show a.length + t.length = (a ++ t).length from by
                          simp [List.length_append]]
                      exact List.drop_left _ _
                    rw [d2]
                    rw [hz2] at hlook
                    exact lookOk_append_left hlook
                  · rw [List.drop_eq_nil_of_le
                      (by rw [ha1, hz1]; simp [List.length_append])]
                    rfl
                · -- t starts inside the match and extends beyond it: t = a' ++ w'
                  apply overlapFree_elim1 hover a.length hd
                  · have d1 : tok.drop a.length = a' := by
                      rw [ha1]
                      exact List.drop_left _ _
                    have hRHS : t.take (tok.length - a.length) = a' := by
                      rw [hw1', show tok.length - a.length = a'.length from by
                        rw [ha1]; simp [List.length_append]]
                      exact List.take_left _ _
                    rw [d1, hRHS]
                    exact List.take_of_length_le (by rw [hw1']; simp [List.length_append])
                  · have e1 : tok.take a.length = a := by
                      rw [ha1]
                      exact List.take_left _ _
                    rw [e1]
                    exact prevOk_or_left hprev
                  · rw [List.drop_eq_nil_of_le
                      (by rw [ha1, hw1']; simp [List.length_append])]
                    rfl
                  · have d3 : t.drop (tok.length - a.length) = w' := by
                      rw [hw1', show tok.length - a.length = a'.length from by
                        rw [ha1]; simp [List.length_append]]
                      exact List.drop_left _ _
                    rw [d3]
                    rw [hdr, hw2'] at h4
                    exact lookOk_append_left h4
            · -- a = tok ++ c' : the occurrence lies beyond the match
              by_cases hc'nil : c' = []
              · exfalso
                rw [hc'nil, List.append_nil] at hc1
                rw [hc'nil, List.nil_append] at hc2
                obtain ⟨t0, ts, rfl⟩ := List.exists_cons_of_ne_nil ht
                rw [hdr, hc2] at h4
                have hw : isWordChar t0 = true := by simpa [isWordOpt] using hthead
                rw [show lookOkB ((t0 :: ts) ++ b) = !isWordChar t0 from rfl, hw] at h4
                exact Bool.noConfusion h4
              · obtain ⟨x, hx⟩ : ∃ x, c'.getLast? = some x := by
                  cases hcl : c'.getLast? with
                  | none => exact absurd (List.getLast?_eq_none_iff.mp hcl) hc'nil
                  | some x => exact ⟨x, rfl⟩
                have hal : a.getLast? = some x := by
                  rw [hc1, List.getLast?_append_of_ne_nil _ hc'nil, hx]
                have hprev' : prevOkB ((c'.getLast?).or tok.getLast?) = true := by
                  rw [hx, some_or]
                  rw [hal, some_or] at hprev
                  exact hprev
                obtain ⟨a₂, b₂, hO, hprev₂, hlook₂⟩ := ih r tok.getLast? c' b
                  (by simp only [List.length_cons] at hlen
                      have := List.length_pos.mpr htok
                      omega)
                  (by rw [hc2, List.append_assoc])
                  hprev' hlook
                refine ⟨'{' :: (tok ++ '}' :: a₂), b₂, ?_, ?_, hlook₂⟩
                · rw [hdr, hO]
                  simp [List.append_assoc]
                · have hgl : ('{' :: (tok ++ '}' :: a₂)).getLast? =
                      (a₂.getLast?).or (some '}') := by
                    rw [show '{' :: (tok ++ '}' :: a₂) = ('{' :: (tok ++ ['}'])) ++ a₂ from by
                      simp, List.getLast?_append, getLast?_wrap]
                  rw [hgl, Option.or_assoc, some_or]
                  cases ha₂ : a₂.getLast? with
                  | none => decide
                  | some x2 =>
                      rw [ha₂, some_or] at hprev₂
                      rw [some_or]
                      exact hprev₂
          · rw [if_neg hm]
            cases a with
            | nil =>
                obtain ⟨t0, ts, rfl⟩ := List.exists_cons_of_ne_nil ht
                have hsplit' : c :: rest = t0 :: (ts ++ b) := by
                  rw [hsplit]
                  rfl
                have hc : c = t0 := (List.cons.injEq _ _ _ _ ▸ hsplit').1
                have hrest : rest = ts ++ b := (List.cons.injEq _ _ _ _ ▸ hsplit').2
                obtain ⟨R, hR, hRlook⟩ := scan_mid tok (t0 :: ts) hover ts [t0] b f rfl
                  (by simp) hlook
                  (by rw [hrest] at hlen
                      simp only [List.length_cons, List.length_append] at hlen
                      omega)
                have hgl : ([t0] : List Char).getLast? = some t0 := rfl
                rw [hgl] at hR
                refine ⟨[], R, ?_, hprev, hRlook⟩
                rw [hc, hrest, hR]
                rfl
            | cons a0 a' =>
                have hsplit' : c :: rest = a0 :: (a' ++ t ++ b) := by
                  rw [hsplit]
                  rfl
                have hc : c = a0 := (List.cons.injEq _ _ _ _ ▸ hsplit').1
                have hrest : rest = a' ++ t ++ b := (List.cons.injEq _ _ _ _ ▸ hsplit').2
                rw [getLast?_cons_or, Option.or_assoc, some_or] at hprev
                obtain ⟨a₂, b₂, hO, hprev₂, hlook₂⟩ := ih rest (some a0) a' b
                  (by simp only [List.length_cons] at hlen; omega)
                  hrest hprev hlook
                refine ⟨a0 :: a₂, b₂, ?_, ?_, hlook₂⟩
                · rw [hc, hO]
                  rfl
                · rw [getLast?_cons_or, Option.or_assoc, some_or]
                  exact hprev₂


theorem braceFree_tail {c : Char} {x : List Char} (h : braceFree (c :: x) = true) :
    braceFree x = true ∧ c ≠ '{' ∧ c ≠ '}' := by
  unfold braceFree at h ⊢
  rw [List.all_cons, Bool.and_eq_true] at h
  refine ⟨h.2, ?_⟩
  have := h.1
  simp only [Bool.and_eq_true, decide_eq_true_eq] at this
  exact this


theorem infix_skip_braceFree {X Y x : List Char} (hx : braceFree x = true)
    (h : ('{' :: X) <:+: (x ++ Y)) : ('{' :: X) <:+: Y := by
  induction x with
  | nil => exact h
  | cons c x' ih =>
      rcases List.infix_cons_iff.mp h with hpre | hinf
      · exfalso
        obtain ⟨r, hr⟩ := hpre
        injection hr with h1 h2
        exact absurd h1.symm (braceFree_mem hx (List.mem_cons_self c x')).1
      · exact ih (braceFree_tail hx).1 hinf


theorem scan_keeps_wrap (tok w : List Char) (htok : tok ≠ []) (hbf : braceFree tok = true)
    (hfree : innerMatchFreeB tok w = true) :
    ∀ (fuel : Nat) (s : List Char) (prev : Option Char), s.length < fuel →
      ('{' :: (w ++ ['}'])) <:+: s →
      ('{' :: (w ++ ['}'])) <:+: replaceTokAux tok fuel prev s := by
  intro fuel
  induction fuel with
  | zero => intro s prev h _; omega
  | succ f ih =>
      intro s prev hlen hinf
      cases s with
      | nil =>
          exfalso
          obtain ⟨s1, t1, h1⟩ := hinf
          have := congrArg List.length h1
          simp [List.length_append] at this
      | cons c rest =>
          rw [replaceTokAux]
          by_cases hm : tok ≠ [] ∧ tok.isPrefixOf (c :: rest) = true ∧ prevOkB prev = true ∧
              lookOkB ((c :: rest).drop tok.length) = true
          · rw [if_pos hm]
            obtain ⟨-, h2, -, -⟩ := hm
            obtain ⟨r, hr⟩ := List.isPrefixOf_iff_prefix.mp h2
            have hlenr : tok.length + r.length = rest.length + 1 := by
              have := congrArg List.length hr
              simpa [List.length_append] using this
            have hdr : (c :: rest).drop tok.length = r := by
              rw [← hr]
              exact List.drop_left _ _
            have hinf' : ('{' :: (w ++ ['}'])) <:+: r :=
              infix_skip_braceFree hbf (show _ <:+: tok ++ r by rw [hr]; exact hinf)
            have hrec := ih r tok.getLast?
              (by simp only [List.length_cons] at hlen
                  have := List.length_pos.mpr htok
                  omega)
              hinf'
            rw [hdr]
            have hass : '{' :: (tok ++ '}' :: replaceTokAux tok f tok.getLast? r) =
                ('{' :: (tok ++ ['}'])) ++ replaceTokAux tok f tok.getLast? r := by
              simp
            rw [hass]
            exact infix_append_left _ hrec
          · rw [if_neg hm]
            rcases List.infix_cons_iff.mp hinf with hpre | hinf'
            · obtain ⟨r2, hr2⟩ := hpre
              have hshape : '{' :: ((w ++ ['}']) ++ r2) = c :: rest := by
                rw [← hr2]
                rfl
              have hc : '{' = c := (List.cons.injEq _ _ _ _ ▸ hshape).1
              have hrest : rest = w ++ '}' :: r2 := by
                have h5 := (List.cons.injEq _ _ _ _ ▸ hshape).2
                rw [← h5, List.append_assoc, List.singleton_append]
              have hin := scan_inside tok w hbf hfree w [] r2 f (by rw [List.nil_append])
                (by rw [hrest] at hlen
                    simp only [List.length_cons, List.length_append] at hlen
                    omega)
              rw [show (('{' : Char) :: ([] : List Char)).getLast? = some '{' from rfl] at hin
              rw [← hc, hrest, hin]
              exact ⟨[], replaceTokAux tok (f - w.length - 1) (some '}') r2, by simp⟩
            · exact infix_cons_lift c (ih rest (some c)
                (by simp only [List.length_cons] at hlen; omega) hinf')


theorem wrapSeq_weaken {T T' : List (List Char)} (hsub : ∀ u ∈ T, u ∈ T') :
    ∀ {s}, WrapSeq T s → WrapSeq T' s := by
  intro s h
  induction h with
  | nil => exact WrapSeq.nil
  | plain h1 h2 _ ih => exact WrapSeq.plain h1 h2 ih
  | wrap hu _ ih => exact WrapSeq.wrap (hsub _ hu) ih


theorem wrapSeq_braceFree {T : List (List Char)} : ∀ {s : List Char}, braceFree s = true →
    WrapSeq T s := by
  intro s
  induction s with
  | nil => intro _; exact WrapSeq.nil
  | cons c s' ih =>
      intro h
      obtain ⟨h1, h2, h3⟩ := braceFree_tail h
      exact WrapSeq.plain h2 h3 (ih h1)


theorem wrapSeq_cons_inv {T : List (List Char)} {c : Char} {s : List Char}
    (h : WrapSeq T (c :: s)) :
    (c ≠ '{' ∧ c ≠ '}' ∧ WrapSeq T s) ∨
    (c = '{' ∧ ∃ u s₂, u ∈ T ∧ s = u ++ '}' :: s₂ ∧ WrapSeq T s₂) := by
  cases h with
  | plain h1 h2 hws => exact Or.inl ⟨h1, h2, hws⟩
  | wrap hu hws => exact Or.inr ⟨rfl, _, _, hu, rfl, hws⟩


theorem wrapSeq_drop {T : List (List Char)} : ∀ (tok : List Char), braceFree tok = true →
    ∀ {s r : List Char}, tok ++ r = s → WrapSeq T s → WrapSeq T r := by
  intro tok
  induction tok with
  | nil =>
      intro _ s r h hw
      cases h
      exact hw
  | cons c tok' ih =>
      intro hbf s r h hw
      cases h
      rcases wrapSeq_cons_inv hw with ⟨-, -, hws⟩ | ⟨hc, -⟩
      · exact ih (braceFree_tail hbf).1 rfl hws
      · exact absurd hc (braceFree_tail hbf).2.1


theorem dEvolve_append (x y : List Char) (d : Nat) :
    dEvolve (x ++ y) d = dEvolve y (dEvolve x d) := by
  induction x generalizing d with
  | nil => rfl
  | cons c x' ih => rw [List.cons_append, dEvolve, dEvolve, ih]


theorem dEvolve_braceFree {w : List Char} (h : braceFree w = true) (d : Nat) :
    dEvolve w d = d := by
  induction w generalizing d with
  | nil => rfl
  | cons c w' ih =>
      obtain ⟨hw', h1, h2⟩ := braceFree_tail h
      rw [dEvolve, show dStep c d = d from by unfold dStep; rw [if_neg h1, if_neg h2]]
      exact ih hw' d


theorem wrapSeq_dEvolve {T : List (List Char)} (hT : ∀ u ∈ T, braceFree u = true) :
    ∀ {s}, WrapSeq T s → dEvolve s 0 = 0 := by
  intro s h
  induction h with
  | nil => rfl
  | plain h1 h2 _ ih =>
      rw [dEvolve, show dStep _ 0 = 0 from by unfold dStep; rw [if_neg h1, if_neg h2]]
      exact ih
  | wrap hu _ ih =>
      rw [dEvolve, show dStep '{' 0 = 1 from rfl, dEvolve_append,
        dEvolve_braceFree (hT _ hu), dEvolve, show dStep '}' 1 = 0 from rfl]
      exact ih


theorem scan_wrapSeq (tok : List Char) (T : List (List Char)) (htok : tok ≠ [])
    (hbf : braceFree tok = true)
    (hT : ∀ u ∈ T, braceFree u = true ∧ innerMatchFreeB tok u = true) :
    ∀ (fuel : Nat) (s : List Char) (prev : Option Char), s.length < fuel → WrapSeq T s →
      WrapSeq (tok :: T) (replaceTokAux tok fuel prev s) := by
  intro fuel
  induction fuel using Nat.strong_induction_on with
  | _ fuel ih =>
      intro s prev hlen hws
      cases s with
      | nil =>
          have hout : replaceTokAux tok fuel prev [] = [] := by cases fuel <;> rfl
          rw [hout]
          exact WrapSeq.nil
      | cons c rest =>
          cases fuel with
          | zero => omega
          | succ f =>
              rw [replaceTokAux]
              by_cases hm : tok ≠ [] ∧ tok.isPrefixOf (c :: rest) = true ∧
                  prevOkB prev = true ∧ lookOkB ((c :: rest).drop tok.length) = true
              · rw [if_pos hm]
                obtain ⟨-, h2, -, -⟩ := hm
                obtain ⟨r, hr⟩ := List.isPrefixOf_iff_prefix.mp h2
                have hlenr : tok.length + r.length = rest.length + 1 := by
                  have := congrArg List.length hr
                  simpa [List.length_append] using this
                have hdr : (c :: rest).drop tok.length = r := by
                  rw [← hr]
                  exact List.drop_left _ _
                rw [hdr]
                refine WrapSeq.wrap (List.mem_cons_self tok T) ?_
                exact ih f (Nat.lt_succ_self f) r tok.getLast?
                  (by simp only [List.length_cons] at hlen
                      have := List.length_pos.mpr htok
                      omega)
                  (wrapSeq_drop tok hbf hr hws)
              · rw [if_neg hm]
                cases hws with
                | plain h1 h2 hws' =>
                    exact WrapSeq.plain h1 h2 (ih f (Nat.lt_succ_self f) rest (some c)
                      (by simp only [List.length_cons] at hlen; omega) hws')
                | wrap hu hws' =>
                    rename_i u s₂
                    obtain ⟨hubf, hufree⟩ := hT _ hu
                    have hin := scan_inside tok u hbf hufree u [] s₂ f
                      (by rw [List.nil_append])
                      (by simp only [List.length_cons, List.length_append] at hlen
                          omega)
                    rw [show (('{' : Char) :: ([] : List Char)).getLast? = some '{' from
                      rfl] at hin
                    rw [hin]
                    refine WrapSeq.wrap (List.mem_cons_of_mem tok hu) ?_
                    exact ih (f - u.length - 1)
                      (by omega)
                      s₂ (some '}')
                      (by simp only [List.length_cons, List.length_append] at hlen
                          omega)
                      hws'


theorem braceFree_prefix_eq : ∀ (t u : List Char) (X : List Char), braceFree t = true →
    braceFree u = true → (t ++ ['}']) <+: (u ++ '}' :: X) → t = u := by
  intro t
  induction t with
  | nil =>
      intro u X _ hu hp
      cases u with
      | nil => rfl
      | cons d u' =>
          exfalso
          obtain ⟨r, hr⟩ := hp
          injection hr with h1 _
          exact absurd h1.symm (braceFree_mem hu (List.mem_cons_self d u')).2
  | cons c t' ih =>
      intro u X ht hu hp
      cases u with
      | nil =>
          exfalso
          obtain ⟨r, hr⟩ := hp
          injection hr with h1 _
          exact absurd h1 (braceFree_mem ht (List.mem_cons_self c t')).2
      | cons d u' =>
          obtain ⟨r, hr⟩ := hp
          injection hr with h1 h2
          rw [h1]
          rw [List.cons.injEq]
          exact ⟨rfl, ih u' X (braceFree_tail ht).1 (braceFree_tail hu).1 ⟨r, h2⟩⟩


theorem wrapSeq_align {T : List (List Char)} (hT : ∀ u ∈ T, braceFree u = true)
    {t : List Char} (hbt : braceFree t = true) :
    ∀ {s}, WrapSeq T s → ('{' :: (t ++ ['}'])) <:+: s →
      ∃ pre post, s = pre ++ '{' :: (t ++ '}' :: post) ∧ dEvolve pre 0 = 0 := by
  intro s hws
  induction hws with
  | nil =>
      intro hinf
      exfalso
      obtain ⟨s1, t1, h1⟩ := hinf
      have := congrArg List.length h1
      simp [List.length_append] at this
  | plain h1 h2 hws ih =>
      rename_i c s'
      intro hinf
      rcases List.infix_cons_iff.mp hinf with hpre | hinf'
      · exfalso
        obtain ⟨r, hr⟩ := hpre
        injection hr with hx _
        exact absurd hx.symm h1
      · obtain ⟨pre, post, heq, hd⟩ := ih hinf'
        refine ⟨c :: pre, post, by rw [heq]; rfl, ?_⟩
        rw [dEvolve, show dStep c 0 = 0 from by unfold dStep; rw [if_neg h1, if_neg h2]]
        exact hd
  | wrap hu hws ih =>
      rename_i u s₂
      intro hinf
      rcases List.infix_cons_iff.mp hinf with hpre | hinf'
      · obtain ⟨r, hr⟩ := hpre
        injection hr with _ h2'
        have ht_u : t = u := braceFree_prefix_eq t u s₂ hbt (hT _ hu) ⟨r, h2'⟩
        refine ⟨[], s₂, ?_, rfl⟩
        rw [ht_u]
        rfl
      · have hskip : ('{' :: (t ++ ['}'])) <:+: ('}' :: s₂) :=
          infix_skip_braceFree (hT _ hu) hinf'
        rcases List.infix_cons_iff.mp hskip with hpre2 | hinf2
        · exfalso
          obtain ⟨r, hr⟩ := hpre2
          injection hr with hx _
          exact absurd hx (by decide)
        · obtain ⟨pre, post, heq, hd⟩ := ih hinf2
          refine ⟨'{' :: (u ++ '}' :: pre), post, ?_, ?_⟩
          · rw [heq]
            simp [List.append_assoc]
          · rw [dEvolve, show dStep '{' 0 = 1 from rfl, dEvolve_append,
              dEvolve_braceFree (hT _ hu), dEvolve, show dStep '}' 1 = 0 from rfl]
            exact hd


theorem foldl_keeps_wrap (w : List Char) :
    ∀ (toks : List (List Char)) (s : List Char),
      (∀ v ∈ toks, v ≠ [] ∧ braceFree v = true ∧ innerMatchFreeB v w = true) →
      ('{' :: (w ++ ['}'])) <:+: s →
      ('{' :: (w ++ ['}'])) <:+: toks.foldl (fun out tok => replaceTok tok out) s := by
  intro toks
  induction toks with
  | nil => intro s _ h; exact h
  | cons v toks' ih =>
      intro s hc hinf
      rw [List.foldl_cons]
      apply ih _ (fun x hx => hc x (List.mem_cons_of_mem v hx))
      obtain ⟨hv1, hv2, hv3⟩ := hc v (List.mem_cons_self v toks')
      exact scan_keeps_wrap v w hv1 hv2 hv3 (s.length + 1) s none (Nat.lt_succ_self _) hinf


theorem foldl_wrapSeq : ∀ (toks : List (List Char)) (T : List (List Char)) (s : List Char),
    toks.Nodup →
    (∀ v ∈ toks, v ≠ [] ∧ braceFree v = true) →
    (∀ u ∈ T, braceFree u = true) →
    (∀ v ∈ toks, ∀ u ∈ T, innerMatchFreeB v u = true) →
    (∀ v ∈ toks, ∀ u ∈ toks, v ≠ u → innerMatchFreeB v u = true) →
    WrapSeq T s →
    WrapSeq (toks.reverse ++ T) (toks.foldl (fun out tok => replaceTok tok out) s) := by
  intro toks
  induction toks with
  | nil =>
      intro T s _ _ _ _ _ hws
      simpa using hws
  | cons v toks' ih =>
      intro T s hnd hv hT hvT hvv hws
      rw [List.foldl_cons]
      have hv0 := hv v (List.mem_cons_self v toks')
      have hstep : WrapSeq (v :: T) (replaceTok v s) :=
        scan_wrapSeq v T hv0.1 hv0.2
          (fun u hu => ⟨hT u hu, hvT v (List.mem_cons_self v toks') u hu⟩)
          (s.length + 1) s none (Nat.lt_succ_self _) hws
      have hrec := ih (v :: T) (replaceTok v s)
        (List.Nodup.of_cons hnd)
        (fun x hx => hv x (List.mem_cons_of_mem v hx))
        (fun u hu => by
          rcases List.mem_cons.mp hu with rfl | hu'
          · exact hv0.2
          · exact hT u hu')
        (fun x hx u hu => by
          rcases List.mem_cons.mp hu with rfl | hu'
          · exact hvv x (List.mem_cons_of_mem u hx) u (List.mem_cons_self u toks')
              (fun hxv => (List.nodup_cons.mp hnd).1 (hxv ▸ hx))
          · exact hvT x (List.mem_cons_of_mem v hx) u hu')
        (fun x hx u hu hxu =>
          hvv x (List.mem_cons_of_mem v hx) u (List.mem_cons_of_mem v hu) hxu)
        hstep
      have hre : (v :: toks').reverse ++ T = toks'.reverse ++ (v :: T) := by
        simp [List.reverse_cons, List.append_assoc]
      rw [hre]
      exact hrec


theorem foldl_creates (t : List Char) (ht : t ≠ []) (hthead : isWordOpt t.head? = true)
    (hbt : braceFree t = true) :
    ∀ (toks : List (List Char)) (s : List Char) (a b : List Char),
      t ∈ toks → toks.Nodup →
      (∀ v ∈ toks, v ≠ [] ∧ braceFree v = true) →
      (∀ v ∈ toks, ∀ u ∈ toks, v ≠ u → innerMatchFreeB v u = true ∧ overlapFreeB v u = true) →
      s = a ++ t ++ b → prevOkB a.getLast? = true → lookOkB b = true →
      ('{' :: (t ++ ['}'])) <:+: toks.foldl (fun out tok => replaceTok tok out) s := by
  intro toks
  induction toks with
  | nil => intro s a b hmem _ _ _ _ _ _; exact absurd hmem (List.not_mem_nil t)
  | cons v toks' ih =>
      intro s a b hmem hnd hv hpair hsplit hprev hlook
      rw [List.foldl_cons]
      by_cases hvt : v = t
      · subst hvt
        have hinf : ('{' :: (v ++ ['}'])) <:+: replaceTok v s :=
          scan_creates v (hv v (List.mem_cons_self v toks')).1 (s.length + 1) s none a b
            (Nat.lt_succ_self _) hsplit (by rw [or_none_char]; exact hprev) hlook
        apply foldl_keeps_wrap v toks' _ ?_ hinf
        intro x hx
        obtain ⟨hx1, hx2⟩ := hv x (List.mem_cons_of_mem v hx)
        refine ⟨hx1, hx2, ?_⟩
        exact (hpair x (List.mem_cons_of_mem v hx) v (List.mem_cons_self v toks')
          (fun hxv => (List.nodup_cons.mp hnd).1 (hxv ▸ hx))).1
      · have hm' : t ∈ toks' := by
          rcases List.mem_cons.mp hmem with rfl | hm'
          · exact absurd rfl hvt
          · exact hm'
        obtain ⟨a', b', hO, hprev', hlook'⟩ :=
          scan_keeps_occ v t (hv v (List.mem_cons_self v toks')).1 ht
            ((hpair t hmem v (List.mem_cons_self v toks') (fun h => hvt h.symm)).2)
            hthead (s.length + 1) s none a b (Nat.lt_succ_self _) hsplit
            (by rw [or_none_char]; exact hprev) hlook
        exact ih (replaceTok v s) a' b' hm' (List.Nodup.of_cons hnd)
          (fun x hx => hv x (List.mem_cons_of_mem v hx))
          (fun x hx u hu hxu =>
            hpair x (List.mem_cons_of_mem v hx) u (List.mem_cons_of_mem v hu) hxu)
          hO (by rw [or_none_char] at hprev'; exact hprev') hlook'


theorem sba_unbraced (text : List Char) : ∀ (cur : List Char) (depth : Nat),
    (depth = 0 → braceFree cur = true) →
    ∀ p ∈ splitByBracesAux text cur depth, p.braced = false → braceFree p.text = true := by
  induction text with
  | nil =>
      intro cur depth hinv p hp hpb
      rw [splitByBracesAux] at hp
      by_cases hc : cur ≠ []
      · rw [if_pos hc] at hp
        rcases List.mem_singleton.mp hp with rfl
        have hd : depth = 0 := by
          simp only [decide_eq_false_iff_not] at hpb
          omega
        exact hinv hd
      · rw [if_neg hc] at hp
        exact absurd hp (List.not_mem_nil p)
  | cons c rest ih =>
      intro cur depth hinv p hp hpb
      rw [splitByBracesAux] at hp
      by_cases h1 : c = '{'
      · rw [if_pos h1] at hp
        by_cases h2 : (decide (depth = 0) && decide (cur ≠ [])) = true
        · rw [if_pos h2] at hp
          simp only [Bool.and_eq_true, decide_eq_true_eq] at h2
          rcases List.mem_cons.mp hp with rfl | hp'
          · exact hinv h2.1
          · exact ih ['{'] 1 (fun h => absurd h one_ne_zero) p hp' hpb
        · rw [if_neg h2] at hp
          exact ih (cur ++ ['{']) (depth + 1) (fun h => absurd h (Nat.succ_ne_zero depth))
            p hp hpb
      · rw [if_neg h1] at hp
        by_cases h3 : c = '}'
        · rw [if_pos h3] at hp
          by_cases h4 : depth - 1 = 0
          · rw [if_pos h4] at hp
            rcases List.mem_cons.mp hp with rfl | hp'
            · exact absurd hpb (by simp)
            · exact ih [] 0 (fun _ => rfl) p hp' hpb
          · rw [if_neg h4] at hp
            exact ih (cur ++ ['}']) (depth - 1) (fun h => absurd h h4) p hp hpb
        · rw [if_neg h3] at hp
          refine ih (cur ++ [c]) depth (fun h => braceFree_append (hinv h) ?_) p hp hpb
          simp [braceFree, h1, h3]


theorem sba_neutral (text : List Char) : ∀ (cur : List Char) (depth : Nat),
    (depth = 0 → braceFree cur = true) → (0 < depth → dEvolve cur 0 = depth) →
    ∀ (l₁ : List BracePart) (q : BracePart) (l₂ : List BracePart),
      splitByBracesAux text cur depth = l₁ ++ q :: l₂ → l₂ ≠ [] → dEvolve q.text 0 = 0 := by
  induction text with
  | nil =>
      intro cur depth _ _ l₁ q l₂ heq hl₂
      rw [splitByBracesAux] at heq
      by_cases hc : cur ≠ []
      · rw [if_pos hc] at heq
        have hlen := congrArg List.length heq
        simp [List.length_append] at hlen
        have hnil : l₂ = [] := List.length_eq_zero.mp (by omega)
        exact absurd hnil hl₂
      · rw [if_neg hc] at heq
        have hlen := congrArg List.length heq
        simp [List.length_append] at hlen
        omega
  | cons c rest ih =>
      intro cur depth hinv1 hinv2 l₁ q l₂ heq hl₂
      rw [splitByBracesAux] at heq
      by_cases h1 : c = '{'
      · rw [if_pos h1] at heq
        by_cases h2 : (decide (depth = 0) && decide (cur ≠ [])) = true
        · rw [if_pos h2] at heq
          simp only [Bool.and_eq_true, decide_eq_true_eq] at h2
          cases l₁ with
          | nil =>
              injection heq with hq htl
              rw [← hq]
              exact dEvolve_braceFree (hinv1 h2.1) 0
          | cons E l₁' =>
              injection heq with hE htl
              exact ih ['{'] 1 (fun h => absurd h one_ne_zero) (fun _ => rfl)
                l₁' q l₂ htl hl₂
        · rw [if_neg h2] at heq
          refine ih (cur ++ ['{']) (depth + 1) (fun h => absurd h (Nat.succ_ne_zero depth))
            ?_ l₁ q l₂ heq hl₂
          intro _
          rw [dEvolve_append]
          rcases Nat.eq_zero_or_pos depth with hd0 | hdp
          · have hcur : cur = [] := by
              subst hd0
              by_cases hc : cur = []
              · exact hc
              · exfalso
                apply h2
                simp [hc]
            rw [hcur, hd0]
            rfl
          · rw [hinv2 hdp]
            rfl
      · rw [if_neg h1] at heq
        by_cases h3 : c = '}'
        · rw [if_pos h3] at heq
          by_cases h4 : depth - 1 = 0
          · rw [if_pos h4] at heq
            cases l₁ with
            | nil =>
                injection heq with hq htl
                rw [← hq]
                show dEvolve (cur ++ ['}']) 0 = 0
                rw [dEvolve_append]
                rcases Nat.eq_zero_or_pos depth with hd0 | hdp
                · rw [dEvolve_braceFree (hinv1 hd0)]
                  rfl
                · have hd1 : depth = 1 := by omega
                  rw [hinv2 hdp, hd1]
                  rfl
            | cons E l₁' =>
                injection heq with hE htl
                exact ih [] 0 (fun _ => rfl) (fun h => absurd h (lt_irrefl 0))
                  l₁' q l₂ htl hl₂
          · rw [if_neg h4] at heq
            refine ih (cur ++ ['}']) (depth - 1) (fun h => absurd h h4) ?_ l₁ q l₂ heq hl₂
            intro hpos
            rw [dEvolve_append, hinv2 (by omega)]
            rfl
        · rw [if_neg h3] at heq
          refine ih (cur ++ [c]) depth ?_ ?_ l₁ q l₂ heq hl₂
          · intro h
            exact braceFree_append (hinv1 h) (by simp [braceFree, h1, h3])
          · intro hpos
            rw [dEvolve_append, hinv2 hpos,
              show dEvolve [c] depth = depth from by
                rw [dEvolve, show dStep c depth = depth from by
                  unfold dStep
                  rw [if_neg h1, if_neg h3]]
                rfl]


theorem sba_append : ∀ (A cur : List Char) (depth : Nat),
    ∃ (Ps : List BracePart) (cur' : List Char),
      ∀ rest, splitByBracesAux (A ++ rest) cur depth =
        Ps ++ splitByBracesAux rest cur' (dEvolve A depth) := by
  intro A
  induction A with
  | nil => intro cur depth; exact ⟨[], cur, fun rest => by rw [List.nil_append]; rfl⟩
  | cons c A' ih =>
      intro cur depth
      by_cases h1 : c = '{'
      · by_cases h2 : (decide (depth = 0) && decide (cur ≠ [])) = true
        · obtain ⟨Ps, cur', hP⟩ := ih ['{'] 1
          refine ⟨⟨cur, false⟩ :: Ps, cur', fun rest => ?_⟩
          rw [List.cons_append, splitByBracesAux, if_pos h1, if_pos h2, hP rest]
          have hd : dEvolve (c :: A') depth = dEvolve A' 1 := by
            simp only [Bool.and_eq_true, decide_eq_true_eq] at h2
            rw [dEvolve, show dStep c depth = 1 from by rw [h1, h2.1]; rfl]
          rw [hd]
          rfl
        · obtain ⟨Ps, cur', hP⟩ := ih (cur ++ ['{']) (depth + 1)
          refine ⟨Ps, cur', fun rest => ?_⟩
          rw [List.cons_append, splitByBracesAux, if_pos h1, if_neg h2, hP rest]
          have hd : dEvolve (c :: A') depth = dEvolve A' (depth + 1) := by
            rw [dEvolve, show dStep c depth = depth + 1 from by rw [h1]; rfl]
          rw [hd]
      · by_cases h3 : c = '}'
        · by_cases h4 : depth - 1 = 0
          · obtain ⟨Ps, cur', hP⟩ := ih [] 0
            refine ⟨⟨cur ++ ['}'], true⟩ :: Ps, cur', fun rest => ?_⟩
            rw [List.cons_append, splitByBracesAux, if_neg h1, if_pos h3, if_pos h4, hP rest]
            have hd : dEvolve (c :: A') depth = dEvolve A' 0 := by
              rw [dEvolve, show dStep c depth = 0 from by
                rw [h3]
                unfold dStep
                rw [if_neg (by decide), if_pos rfl]
                exact h4]
            rw [hd]
            rfl
          · obtain ⟨Ps, cur', hP⟩ := ih (cur ++ ['}']) (depth - 1)
            refine ⟨Ps, cur', fun rest => ?_⟩
            rw [List.cons_append, splitByBracesAux, if_neg h1, if_pos h3, if_neg h4, hP rest]
            have hd : dEvolve (c :: A') depth = dEvolve A' (depth - 1) := by
              rw [dEvolve, show dStep c depth = depth - 1 from by
                rw [h3]
                unfold dStep
                rw [if_neg (by decide), if_pos rfl]]
            rw [hd]
        · obtain ⟨Ps, cur', hP⟩ := ih (cur ++ [c]) depth
          refine ⟨Ps, cur', fun rest => ?_⟩
          rw [List.cons_append, splitByBracesAux, if_neg h1, if_neg h3, hP rest]
          have hd : dEvolve (c :: A') depth = dEvolve A' depth := by
            rw [dEvolve, show dStep c depth = depth from by
              unfold dStep
              rw [if_neg h1, if_neg h3]]
          rw [hd]


theorem sba_walk : ∀ (w rest cur : List Char) (depth : Nat), braceFree w = true →
    splitByBracesAux (w ++ rest) cur depth = splitByBracesAux rest (cur ++ w) depth := by
  intro w
  induction w with
  | nil => intro rest cur depth _; rw [List.nil_append, List.append_nil]
  | cons c w' ih =>
      intro rest cur depth hbf
      obtain ⟨hw', h1, h2⟩ := braceFree_tail hbf
      rw [List.cons_append, splitByBracesAux, if_neg h1, if_neg h2,
        ih rest (cur ++ [c]) depth hw', List.append_assoc, List.singleton_append]


theorem mem_infix_flatten {l : List (List Char)} {x : List Char} (h : x ∈ l) :
    x <:+: l.flatten := by
  obtain ⟨s, t, rfl⟩ := List.append_of_mem h
  rw [List.flatten_append, List.flatten_cons, ← List.append_assoc]
  exact List.infix_append _ _ _


theorem dEvolve_flatten_zero : ∀ (l : List (List Char)), (∀ x ∈ l, dEvolve x 0 = 0) →
    dEvolve l.flatten 0 = 0 := by
  intro l
  induction l with
  | nil => intro _; rfl
  | cons x rest ih =>
      intro h
      rw [List.flatten_cons, dEvolve_append, h x (List.mem_cons_self x rest)]
      exact ih (fun y hy => h y (List.mem_cons_of_mem x hy))


theorem sba_wrap_mem (t Y cur' : List Char) (hbt : braceFree t = true) :
    (⟨'{' :: (t ++ ['}']), true⟩ : BracePart) ∈
      splitByBracesAux ('{' :: (t ++ '}' :: Y)) cur' 0 := by
  rw [splitByBracesAux, if_pos rfl]
  by_cases hc : (decide ((0 : Nat) = 0) && decide (cur' ≠ [])) = true
  · rw [if_pos hc, sba_walk t ('}' :: Y) ['{'] 1 hbt, splitByBracesAux,
      if_neg (show ¬('}' = '{') by decide), if_pos rfl,
      if_pos (show (1 : Nat) - 1 = 0 by rfl)]
    apply List.mem_cons_of_mem
    rw [show ('{' :: (t ++ ['}'])) = (['{'] ++ t) ++ ['}'] from by simp]
    exact List.mem_cons_self _ _
  · rw [if_neg hc]
    have hcur : cur' = [] := by
      by_cases h : cur' = []
      · exact h
      · exfalso
        apply hc
        simp [h]
    rw [sba_walk t ('}' :: Y) (cur' ++ ['{']) (0 + 1) hbt, splitByBracesAux,
      if_neg (show ¬('}' = '{') by decide), if_pos rfl,
      if_pos (show (0 + 1 : Nat) - 1 = 0 by rfl), hcur]
    rw [show ('{' :: (t ++ ['}'])) = ((([] : List Char) ++ ['{']) ++ t) ++ ['}'] from by simp]
    exact List.mem_cons_self _ _


/-- C7: every configured protected token `t` that occurs as a standalone,
word-boundary-delimited word inside an unbraced span of the title appears as
`{t}` (original casing, verbatim) in the output of `smartTitlecase`. -/
theorem c7_protected_token_wrapped (title t : String) (ht : t ∈ PROTECT_TITLE_TOKENS)
    (p : BracePart) (hp : p ∈ splitByBraces title.data) (hunb : p.braced = false)
    (a b : List Char) (hsplit : p.text = a ++ t.data ++ b)
    (hprev : prevOkB a.getLast? = true) (hlook : lookOkB b = true) :
    ('{' :: (t.data ++ ['}'])) <:+: (smartTitlecase title).data := by
  by_cases ht0 : title = ""
  · exfalso
    subst ht0
    simp [splitByBraces, splitByBracesAux] at hp
  set TOKS := sortedTokens PROTECT_TITLE_TOKENS with hTOKS
  have htd : t.data ∈ TOKS := tokens_check3 t ht
  have hnd : TOKS.Nodup := by rw [hTOKS]; decide
  have ht1 : t.data ≠ [] := (tokens_check2 t.data htd).1
  have hbtf : braceFree t.data = true := (tokens_check2 t.data htd).2.1
  have hthead : isWordOpt t.data.head? = true := (tokens_check2 t.data htd).2.2
  have hv' : ∀ v ∈ TOKS, v ≠ [] ∧ braceFree v = true :=
    fun v hv => ⟨(tokens_check2 v hv).1, (tokens_check2 v hv).2.1⟩
  have hpair' : ∀ v ∈ TOKS, ∀ u ∈ TOKS, v ≠ u →
      innerMatchFreeB v u = true ∧ overlapFreeB v u = true :=
    fun v hv u hu hvu => tokens_check1 u hu v hv hvu
  have hTvacuous : ∀ u ∈ ([] : List (List Char)), braceFree u = true :=
    fun u hu => absurd hu (List.not_mem_nil u)
  have hTrev : ∀ u ∈ TOKS.reverse, braceFree u = true :=
    fun u hu => (tokens_check2 u (List.mem_reverse.mp hu)).2.1
  obtain ⟨L₁, L₂, hLL⟩ := List.append_of_mem hp
  have hpbf : braceFree p.text = true :=
    sba_unbraced title.data [] 0 (fun _ => rfl) p hp hunb
  have hPO : protectPart TOKS p = TOKS.foldl (fun out tok => replaceTok tok out) p.text := by
    simp [protectPart, hunb]
  have hinf : ('{' :: (t.data ++ ['}'])) <:+:
      TOKS.foldl (fun out tok => replaceTok tok out) p.text :=
    foldl_creates t.data ht1 hthead hbtf TOKS p.text a b htd hnd hv'
      (fun v hv u hu hvu => hpair' v hv u hu hvu) hsplit hprev hlook
  have hws : WrapSeq TOKS.reverse (TOKS.foldl (fun out tok => replaceTok tok out) p.text) := by
    have h0 := foldl_wrapSeq TOKS [] p.text hnd hv' hTvacuous
      (fun v hv u hu => absurd hu (List.not_mem_nil u))
      (fun v hv u hu hvu => (hpair' v hv u hu hvu).1)
      (wrapSeq_braceFree hpbf)
    rwa [List.append_nil] at h0
  obtain ⟨pre, post, hdecomp, hdpre⟩ := wrapSeq_align hTrev hbtf hws hinf
  have hneutral : ∀ q ∈ L₁, dEvolve (protectPart TOKS q) 0 = 0 := by
    intro q hq
    have hqmem : q ∈ splitByBraces title.data := by
      rw [hLL]
      exact List.mem_append_left _ hq
    by_cases hqb : q.braced = true
    · have hqt : protectPart TOKS q = q.text := by simp [protectPart, hqb]
      rw [hqt]
      obtain ⟨X, Y, hXY⟩ := List.append_of_mem hq
      apply sba_neutral title.data [] 0 (fun _ => rfl) (fun h => absurd h (lt_irrefl 0))
        X q (Y ++ p :: L₂) ?_ (by simp)
      rw [show splitByBracesAux title.data [] 0 = splitByBraces title.data from rfl,
        hLL, hXY]
      simp [List.append_assoc]
    · have hqbf : braceFree q.text = true :=
        sba_unbraced title.data [] 0 (fun _ => rfl) q hqmem (Bool.not_eq_true _ ▸ hqb)
      have hqt : protectPart TOKS q =
          TOKS.foldl (fun out tok => replaceTok tok out) q.text := by
        simp [protectPart, Bool.not_eq_true _ ▸ hqb]
      rw [hqt]
      have hwsq := foldl_wrapSeq TOKS [] q.text hnd hv' hTvacuous
        (fun v hv u hu => absurd hu (List.not_mem_nil u))
        (fun v hv u hu hvu => (hpair' v hv u hu hvu).1)
        (wrapSeq_braceFree hqbf)
      rw [List.append_nil] at hwsq
      exact wrapSeq_dEvolve hTrev hwsq
  have hA : dEvolve ((L₁.map (protectPart TOKS)).flatten) 0 = 0 :=
    dEvolve_flatten_zero _ (by
      intro x hx
      obtain ⟨q, hq, rfl⟩ := List.mem_map.mp hx
      exact hneutral q hq)
  have hPT : (protectTokensInTitle title PROTECT_TITLE_TOKENS).data =
      ((splitByBraces title.data).map (protectPart TOKS)).flatten := by
    unfold protectTokensInTitle
    rw [if_neg ht0]
  have hshape : (protectTokensInTitle title PROTECT_TITLE_TOKENS).data =
      (((L₁.map (protectPart TOKS)).flatten) ++ pre) ++
        '{' :: (t.data ++ '}' :: (post ++ ((L₂.map (protectPart TOKS)).flatten))) := by
    rw [hPT, hLL]
    simp only [List.map_append, List.map_cons, List.flatten_append, List.flatten_cons]
    rw [hPO, hdecomp]
    simp [List.append_assoc]
  have hd0 : dEvolve (((L₁.map (protectPart TOKS)).flatten) ++ pre) 0 = 0 := by
    rw [dEvolve_append, hA]
    exact hdpre
  obtain ⟨Ps, cur', hsba⟩ := sba_append (((L₁.map (protectPart TOKS)).flatten) ++ pre) [] 0
  have hqstar : (⟨'{' :: (t.data ++ ['}']), true⟩ : BracePart) ∈
      splitByBraces (protectTokensInTitle title PROTECT_TITLE_TOKENS).data := by
    rw [show splitByBraces (protectTokensInTitle title PROTECT_TITLE_TOKENS).data =
      splitByBracesAux (protectTokensInTitle title PROTECT_TITLE_TOKENS).data [] 0 from rfl,
      hshape, hsba _, hd0]
    exact List.mem_append_right _ (sba_wrap_mem t.data _ cur' hbtf)
  have hST : (smartTitlecase title).data =
      ((splitByBraces (protectTokensInTitle title PROTECT_TITLE_TOKENS).data).map
        (fun q => if q.braced then q.text else titlecaseSegment q.text)).flatten := by
    unfold smartTitlecase
    rw [if_neg ht0]
  rw [hST]
  apply mem_infix_flatten
  exact List.mem_map.mpr ⟨⟨'{' :: (t.data ++ ['}']), true⟩, hqstar, rfl⟩


theorem c7_protected_token_wrapped_witness :
    ('{' :: (("PROTAC" : String).data ++ ['}'])) <:+:
      (smartTitlecase ("PROTAC degraders" : String)).data :=
  c7_protected_token_wrapped "PROTAC degraders" "PROTAC" (by decide)
    ⟨("PROTAC degraders" : String).data, false⟩ (by decide) rfl
    [] (" degraders" : String).data (by decide) (by decide) (by decide)

end BibCleaner
